import Mathlib

/-!
# Organizational units of the adldap provider

A shallow embedding of `internal/provider/resource_organizational_unit.go`:
the four regular expressions the file uses, `getParentObject`, `ouExists`,
`createOU` and `deleteOU`, over an explicit directory collaborator.

Go strings are `String` (sequences of code points); the regular expressions run
over `String.data`.  `log.Fatal` and a run-time panic are outcomes of their own,
distinct from a returned `error`.

The three constant patterns are written in the fragment `Re`.  The pattern of
line 116 is built from the search base: for a search base with no regexp
metacharacter other than `.` it is in the fragment too, and for any other search
base the answer of the regexp library is a parameter, `rx`, so that the
containment check and `createOU` are defined for every search base.
-/

namespace Adldap

/-! ## Regular expressions -/

/-- The fragment of Go `regexp` in which the patterns of the source are written.
Repetition applies to a single character class, as it does in all of them. -/
inductive Re where
  /-- one character of a class -/
  | cls (p : Char → Bool)
  /-- greedy `x*` over a class -/
  | star (p : Char → Bool)
  /-- greedy `x+` over a class -/
  | plus (p : Char → Bool)
  /-- `^` without the `m` flag: beginning of the text -/
  | bol
  /-- `$` without the `m` flag: end of the text -/
  | eol
  /-- the capture group (no pattern of the source has more than one) -/
  | group (r : Re)
  /-- concatenation -/
  | seq (r₁ r₂ : Re)

/-- A point of a backtracking run: `pos` characters of the text are consumed,
`rest` is what follows, `cap` is the text of the capture group once it has closed. -/
structure MState where
  pos : Nat
  rest : List Char
  cap : Option (List Char)

/-- The remainders a greedy `p*` can leave, in the order a backtracking search
tries them: longest repetition first. -/
def stars (p : Char → Bool) : List Char → List (List Char)
  | [] => [[]]
  | c :: cs => if p c then stars p cs ++ [c :: cs] else [c :: cs]

/-- The state reached from `st` when the remainder `r` of `st.rest` is left. -/
def MState.advance (st : MState) (r : List Char) : MState :=
  ⟨st.pos + (st.rest.length - r.length), r, st.cap⟩

/-- All ways to match `re` at `st`, in the priority order of a backtracking
search (Go's leftmost-first semantics picks the head). -/
def Re.run : Re → MState → List MState
  | .cls p, st =>
    match st.rest with
    | c :: cs => if p c then [st.advance cs] else []
    | [] => []
  | .star p, st => (stars p st.rest).map st.advance
  | .plus p, st =>
    match st.rest with
    | c :: cs => if p c then (stars p cs).map st.advance else []
    | [] => []
  | .bol, st => if st.pos = 0 then [st] else []
  | .eol, st => if st.rest = [] then [st] else []
  | .group r, st =>
    (r.run st).map fun st' => ⟨st'.pos, st'.rest, some (st.rest.take (st'.pos - st.pos))⟩
  | .seq r₁ r₂, st => (r₁.run st).flatMap r₂.run

/-- Whether the pattern has a capture group. -/
def Re.hasGroup : Re → Bool
  | .group _ => true
  | .seq r₁ r₂ => r₁.hasGroup || r₂.hasGroup
  | _ => false

/-- The match starting at offset `i` of the text, if there is one: the matched
text, followed by the text of the group when the pattern has one. -/
def Re.findAt (re : Re) (text : List Char) (i : Nat) : Option (List String) :=
  match re.run ⟨i, text.drop i, none⟩ with
  | [] => none
  | st :: _ =>
    some (String.mk ((text.drop i).take (st.pos - i)) ::
      (if re.hasGroup then [String.mk (st.cap.getD [])] else []))

/-- Go `(*Regexp).FindStringSubmatch`: the leftmost match, `none` for Go's `nil`. -/
def Re.findStringSubmatch (re : Re) (text : List Char) : Option (List String) :=
  (List.range (text.length + 1)).findSome? (re.findAt text)

/-- Go `regexp.MatchString` on a compiled pattern: some substring matches. -/
def Re.matchString (re : Re) (text : List Char) : Bool :=
  (re.findStringSubmatch text).isSome

/-- The class of `.` without the `s` flag: any character but a newline. -/
def isDot (c : Char) : Bool := c != '\n'

/-- The class `[^,]`. -/
def notComma (c : Char) : Bool := c != ','

/-- The class of the single character `c`. -/
def isChar (c : Char) : Char → Bool := fun d => d == c

/-- The class of a letter under `(?i)`: either case (for `o` and `u` Unicode
simple folding adds nothing else). -/
def foldChar (lower upper : Char) : Char → Bool := fun d => d == lower || d == upper

/-- Line 14: `ouRegexp = (?i)^OU=([^,]+).*$`. -/
def ouRegexp : Re :=
  .seq .bol (.seq (.cls (foldChar 'o' 'O')) (.seq (.cls (foldChar 'u' 'U'))
    (.seq (.cls (isChar '=')) (.seq (.group (.plus notComma)) (.seq (.star isDot) .eol)))))

/-- Line 131: the pattern `(?i)^ou=`. -/
def ouKeyRegexp : Re :=
  .seq .bol (.seq (.cls (foldChar 'o' 'O')) (.seq (.cls (foldChar 'u' 'U')) (.cls (isChar '='))))

/-- Line 182: the pattern `^[^,]+, *(.*)$`. -/
def parentRegexp : Re :=
  .seq .bol (.seq (.plus notComma) (.seq (.cls (isChar ',')) (.seq (.star (isChar ' '))
    (.seq (.group (.star isDot)) .eol))))

/-- The characters Go's regexp syntax gives a meaning of their own
(those `regexp.QuoteMeta` escapes). -/
def isMeta (c : Char) : Bool :=
  c ∈ ['\\', '.', '+', '*', '?', '(', ')', '|', '[', ']', '{', '}', '^', '$']

/-- A text every character of which stands for itself in a pattern. -/
def isLiteral (s : String) : Bool := s.data.all fun c => !isMeta c

/-- What one character of the search base is once it stands in the pattern of
line 116: `.` is any character but a newline, a character without a meaning in
the regexp syntax is itself.  The other metacharacters are outside the
fragment `Re` (`none`). -/
def baseAtom (c : Char) : Option Re :=
  if c = '.' then some (.cls isDot)
  else if isMeta c then none
  else some (.cls (isChar c))

/-- The tail `%s$` of the pattern of line 116, for the text of the search base. -/
def baseTail : List Char → Option Re
  | [] => some .eol
  | c :: cs =>
    match baseAtom c, baseTail cs with
    | some a, some r => some (.seq a r)
    | _, _ => none

/-- Line 116: the pattern `.*, *%s$` with the search base spliced in, unescaped.
`none` when the search base has a metacharacter other than `.`: the pattern is
then outside the fragment `Re`. -/
def basePattern (searchBase : String) : Option Re :=
  match baseTail searchBase.data with
  | some r => some (.seq (.star isDot) (.seq (.cls (isChar ',')) (.seq (.star (isChar ' ')) r)))
  | none => none

/-- Go's `regexp.MatchString(pattern, text)` as far as line 116 keeps it: the
`matched` result, which is `false` when the pattern does not compile (the error
is dropped there).  The package is a library outside the repository, and a
pattern outside the fragment `Re` is answered by a function of this type, a
parameter of the embedding. -/
abbrev MatchString := String → String → Bool

/-- Line 116: `regexp.MatchString(fmt.Sprintf(".*, *%s$", searchBase), ou)`, the
containment check of `createOU`.  For a search base with no metacharacter other
than `.` the pattern is `basePattern`; for any other search base the answer is
the library's, `rx`, on the same pattern text. -/
def withinSearchBase (rx : MatchString) (searchBase ou : String) : Bool :=
  match basePattern searchBase with
  | some re => re.matchString ou.data
  | none => rx (".*, *" ++ searchBase ++ "$") ou

/-- The library that matches nothing, for the evaluations that need an instance.
It is consulted only for a search base with a metacharacter other than `.`. -/
def matchNothing : MatchString := fun _ _ => false

/-! ## Outcomes of a call -/

/-- How a call of the source can end. -/
inductive Outcome (α : Type) where
  /-- the function returned -/
  | ret (a : α)
  /-- `log.Fatal`: the message is logged and the process exits -/
  | fatal (msg : String)
  /-- run-time panic (index out of range) -/
  | panic
  deriving DecidableEq

/-- Lines 177-189: `getParentObject`. -/
def getParentObject (ou : String) : Outcome String :=
  if ou = "" then .fatal "unable to get parent object of empty string"
  else
    match parentRegexp.findStringSubmatch ou.data with
    | some (_ :: parent :: _) => .ret parent
    | _ => .ret ""

/-! ## The directory collaborator -/

/-- An operation issued to the directory client. -/
inductive Op where
  | search (base filter : String) (attributes : List String)
  | add (dn : String) (attributes : List (String × List String))
  | del (dn : String)
  deriving DecidableEq

/-- Modelled from the spec: the directory client and `ldapSearch`, which are not
in the sources, are the collaborator of the spec's section 6, `Search`, `Add` and
`Delete` on a connection.  A directory is any state machine answering them: a
search yields the matching entries (by DN) or an error, an add and a delete
yield an error or none, and each may change the state. -/
structure Directory (σ : Type) where
  search : σ → String → String → List String → Except String (List String) × σ
  add : σ → String → List (String × List String) → Option String × σ
  del : σ → String → Option String × σ

/-- The directory together with the operations issued so far, oldest first. -/
structure World (σ : Type) where
  dir : σ
  log : List Op
  deriving DecidableEq

/-- `ldapSearch(client, searchBase, filter, requestedAttributes)`. -/
def ldapSearch {σ : Type} (D : Directory σ) (searchBase filter : String)
    (requestedAttributes : List String) (w : World σ) :
    Except String (List String) × World σ :=
  ((D.search w.dir searchBase filter requestedAttributes).1,
   ⟨(D.search w.dir searchBase filter requestedAttributes).2,
    w.log ++ [.search searchBase filter requestedAttributes]⟩)

/-- `client.Add(request)`. -/
def clientAdd {σ : Type} (D : Directory σ) (dn : String)
    (attributes : List (String × List String)) (w : World σ) : Option String × World σ :=
  ((D.add w.dir dn attributes).1, ⟨(D.add w.dir dn attributes).2, w.log ++ [.add dn attributes]⟩)

/-- `client.Del(request)`. -/
def clientDel {σ : Type} (D : Directory σ) (dn : String) (w : World σ) :
    Option String × World σ :=
  ((D.del w.dir dn).1, ⟨(D.del w.dir dn).2, w.log ++ [.del dn]⟩)

/-! ## Messages -/

/-- Line 100: the search filter for one DN. -/
def ouFilter (ou : String) : String :=
  "(&(objectClass=organizationalUnit)(distinguishedName=" ++ ou ++ "))"

/-- Line 110. -/
def tooManyResults (ou : String) : String :=
  "too many results returned searching for DN \"" ++ ou ++ "\""

/-- Line 117. -/
def outsideSearchBase (ou searchBase : String) : String :=
  "cannot create organizational unit \"" ++ ou ++ "\" outside search base \"" ++ searchBase ++ "\""

/-- Line 125. -/
def alreadyExists (ou : String) : String :=
  "organizational unit \"" ++ ou ++ "\" already exists"

/-- Line 147. -/
def parentMissing (ou : String) : String :=
  "parent for organizational unit \"" ++ ou ++ "\" does not exist"

/-! ## The operations -/

/-- Lines 99-113: `ouExists`, returning `(bool, error)`. -/
def ouExists {σ : Type} (D : Directory σ) (searchBase ou : String) (w : World σ) :
    (Bool × Option String) × World σ :=
  match ldapSearch D searchBase (ouFilter ou) ["distinguishedName"] w with
  | (.error err, w₁) => ((false, some err), w₁)
  | (.ok entries, w₁) =>
    if entries.length = 1 then ((true, none), w₁)
    else if entries.length > 1 then ((false, some (tooManyResults ou)), w₁)
    else ((false, none), w₁)

/-- Lines 153-160: the naming value is taken from `ouRegexp`, and the entry is added.
Indexing the `nil` of a failed match panics. -/
def addOU {σ : Type} (D : Directory σ) (ou : String) (w : World σ) :
    Outcome (Option String) × World σ :=
  match ouRegexp.findStringSubmatch ou.data with
  | some (_ :: ouCN :: _) =>
    (.ret (clientAdd D ou [("objectClass", ["organizationalUnit"]), ("ou", [ouCN])] w).1,
     (clientAdd D ou [("objectClass", ["organizationalUnit"]), ("ou", [ouCN])] w).2)
  | _ => (.panic, w)

/-- Lines 115-161: `createOU`, with a bound on the depth of its recursion
(`none` when the bound is reached).  The pattern of line 131 is a constant that
compiles, so the `log.Fatal` of line 133 is never reached and has no branch
here; an `error` that `ouExists` reports for the parent is the `log.Fatal` of
line 138. -/
def createOUFuel {σ : Type} (rx : MatchString) (D : Directory σ) (searchBase : String) :
    Nat → String → Bool → World σ → Option (Outcome (Option String) × World σ)
  | 0, _, _, _ => none
  | fuel + 1, ou, createParents, w =>
    if !withinSearchBase rx searchBase ou then
      some (.ret (some (outsideSearchBase ou searchBase)), w)
    else
      match ouExists D searchBase ou w with
      | ((_, some err), w₁) => some (.ret (some err), w₁)
      | ((true, none), w₁) => some (.ret (some (alreadyExists ou)), w₁)
      | ((false, none), w₁) =>
        match getParentObject ou with
        | .fatal msg => some (.fatal msg, w₁)
        | .panic => some (.panic, w₁)
        | .ret parentOU =>
          if parentOU ≠ searchBase then
            if ouKeyRegexp.matchString ou.data then
              match ouExists D searchBase parentOU w₁ with
              | ((_, some err), w₂) => some (.fatal err, w₂)
              | ((true, none), w₂) => some (addOU D ou w₂)
              | ((false, none), w₂) =>
                if createParents then
                  match createOUFuel rx D searchBase fuel parentOU true w₂ with
                  | none => none
                  | some (.ret none, w₃) => some (addOU D ou w₃)
                  | some (r, w₃) => some (r, w₃)
                else some (.ret (some (parentMissing ou)), w₂)
            else some (addOU D ou w₁)
          else some (addOU D ou w₁)

/-- Lines 115-161: `createOU`.  Every recursive call is on a strictly shorter DN,
so the length of `ou` bounds the depth. -/
def createOU {σ : Type} (rx : MatchString) (D : Directory σ) (searchBase ou : String)
    (createParents : Bool) (w : World σ) : Option (Outcome (Option String) × World σ) :=
  createOUFuel rx D searchBase (ou.length + 1) ou createParents w

/-- Lines 163-175: `deleteOU`. -/
def deleteOU {σ : Type} (D : Directory σ) (searchBase ou : String) (w : World σ) :
    Option String × World σ :=
  match ouExists D searchBase ou w with
  | ((_, some err), w₁) => (some err, w₁)
  | ((true, none), w₁) => clientDel D ou w₁
  | ((false, none), w₁) => (none, w₁)

/-! ## A reference directory -/

/-- An in-memory directory of organizational units: the state is the list of
their DNs.  A search for the filter of a DN finds the entries with that DN, an
add fails on a DN already present, a delete fails on a DN that is absent. -/
def memDir : Directory (List String) where
  search := fun s _ filter _ => (.ok (s.filter fun d => ouFilter d = filter), s)
  add := fun s dn _ =>
    if dn ∈ s then (some "LDAP Result Code 68 \"Entry Already Exists\"", s) else (none, s ++ [dn])
  del := fun s dn =>
    if dn ∈ s then (none, s.filter fun d => d ≠ dn)
    else (some "LDAP Result Code 32 \"No Such Object\"", s)

/-- A scripted directory, as a test double: the state is the list of the results
the coming searches get, in order, and a search finds no entry once the list is
used up; every add and every delete succeeds. -/
def scriptDir : Directory (List (Except String (List String))) where
  search := fun s _ _ _ =>
    match s with
    | [] => (.ok [], [])
    | r :: rs => (r, rs)
  add := fun s _ _ => (none, s)
  del := fun s _ => (none, s)

/-- The DNs of the entries the operations add, in order. -/
def addedDNs : List Op → List String
  | [] => []
  | .add dn _ :: ops => dn :: addedDNs ops
  | _ :: ops => addedDNs ops

/-- The DNs the operations delete, in order. -/
def deletedDNs : List Op → List String
  | [] => []
  | .del dn :: ops => dn :: deletedDNs ops
  | _ :: ops => deletedDNs ops

/-- The search `ouExists` issues for a DN. -/
def existsSearch (searchBase ou : String) : Op :=
  .search searchBase (ouFilter ou) ["distinguishedName"]

/-! ## Distinguished names as text -/

/-- A run of `n` spaces. -/
def spaces (n : Nat) : List Char := List.replicate n ' '

/-- The DN of the OU named `value` directly under `parent`: `OU=<value>,<parent>`. -/
def ouDN (value parent : String) : String := "OU=" ++ value ++ "," ++ parent

/-- The DN made of the OU components `values`, leaf first, on top of `base`. -/
def dnOver (base : String) : List String → String
  | [] => base
  | v :: vs => ouDN v (dnOver base vs)

/-- The DNs of the OUs of `dnOver base values`, from the one directly under the
base down to the leaf. -/
def ancestorChain (base : String) : List String → List String
  | [] => []
  | v :: vs => ancestorChain base vs ++ [dnOver base (v :: vs)]

/-- The first component of the DN has the key `OU`, in either case. -/
def OUShaped (dn : String) : Prop :=
  ∃ o u t, dn.data = o :: u :: '=' :: t ∧ (o = 'o' ∨ o = 'O') ∧ (u = 'u' ∨ u = 'U')

/-- A naming value that the patterns read as one component: not empty, and
without a comma or a newline. -/
def PlainValue (v : String) : Prop :=
  v ≠ "" ∧ ',' ∉ v.data ∧ '\n' ∉ v.data

instance (v : String) : Decidable (PlainValue v) := by
  unfold PlainValue
  infer_instance

/-- A search base that `getParentObject` can give back: its pattern is within
the fragment `Re`, it does not begin with a space and has no newline. -/
def PlainBase (base : String) : Prop :=
  (basePattern base).isSome = true ∧ base.data.head? ≠ some ' ' ∧ '\n' ∉ base.data

instance (base : String) : Decidable (PlainBase base) := by
  unfold PlainBase
  infer_instance

/-! ## Greedy repetition -/

theorem stars_cons_pos {p : Char → Bool} {c : Char} (cs : List Char) (h : p c = true) :
    stars p (c :: cs) = stars p cs ++ [c :: cs] := by
  simp [stars, h]

theorem stars_cons_neg {p : Char → Bool} {c : Char} (cs : List Char) (h : p c = false) :
    stars p (c :: cs) = [c :: cs] := by
  simp [stars, h]

theorem mem_stars_self (p : Char → Bool) (t : List Char) : t ∈ stars p t := by
  cases t with
  | nil => simp [stars]
  | cons c cs =>
    by_cases h : p c = true
    · simp [stars, h]
    · simp [stars, h]

theorem mem_stars_append {p : Char → Bool} {a : List Char} (ha : ∀ c ∈ a, p c = true)
    {r t : List Char} (h : r ∈ stars p t) : r ∈ stars p (a ++ t) := by
  induction a with
  | nil => simpa using h
  | cons x a ih =>
    have hx : p x = true := ha x (by simp)
    have := ih (fun c hc => ha c (by simp [hc]))
    rw [List.cons_append, stars_cons_pos _ hx]
    exact List.mem_append_left _ this

theorem exists_of_mem_stars {p : Char → Bool} {r t : List Char} (h : r ∈ stars p t) :
    ∃ a, t = a ++ r ∧ ∀ c ∈ a, p c = true := by
  induction t with
  | nil =>
    simp [stars] at h
    exact ⟨[], by simp [h]⟩
  | cons c cs ih =>
    by_cases hc : p c = true
    · rw [stars_cons_pos _ hc] at h
      rcases List.mem_append.1 h with h | h
      · obtain ⟨a, ha, hall⟩ := ih h
        refine ⟨c :: a, by simp [ha], ?_⟩
        intro d hd
        rcases List.mem_cons.1 hd with rfl | hd
        · exact hc
        · exact hall d hd
      · simp at h
        exact ⟨[], by simp [h]⟩
    · have hc' : p c = false := by simpa using hc
      rw [stars_cons_neg _ hc'] at h
      simp at h
      exact ⟨[], by simp [h]⟩

theorem length_le_of_mem_stars {p : Char → Bool} {r t : List Char} (h : r ∈ stars p t) :
    r.length ≤ t.length := by
  obtain ⟨a, ha, _⟩ := exists_of_mem_stars h
  simp [ha]

theorem stars_of_stop {p : Char → Bool} {t : List Char}
    (ht : ∀ c cs, t = c :: cs → p c = false) : stars p t = [t] := by
  cases t with
  | nil => rfl
  | cons c cs => exact stars_cons_neg _ (ht c cs rfl)

theorem stars_append_head {p : Char → Bool} {a : List Char} (ha : ∀ c ∈ a, p c = true)
    (t : List Char) : ∃ L, stars p (a ++ t) = stars p t ++ L := by
  induction a with
  | nil => exact ⟨[], by simp⟩
  | cons x a ih =>
    obtain ⟨L, hL⟩ := ih (fun c hc => ha c (by simp [hc]))
    refine ⟨L ++ [x :: (a ++ t)], ?_⟩
    rw [List.cons_append, stars_cons_pos _ (ha x (by simp)), hL, List.append_assoc]

theorem stars_flatMap_skip {β : Type} {p : Char → Bool} (g : List Char → List β)
    (hg : ∀ c cs, p c = true → g (c :: cs) = []) {a : List Char}
    (ha : ∀ c ∈ a, p c = true) (t : List Char) :
    (stars p (a ++ t)).flatMap g = (stars p t).flatMap g := by
  induction a with
  | nil => simp
  | cons x a ih =>
    have hx : p x = true := ha x (by simp)
    rw [List.cons_append, stars_cons_pos _ hx, List.flatMap_append,
      ih (fun c hc => ha c (by simp [hc]))]
    simp [hg x (a ++ t) hx]

/-! ## The pattern of `getParentObject` -/

theorem run_group_dots_eol (st : MState) (h : ∀ c ∈ st.rest, isDot c = true) :
    ∃ pos L, (Re.seq (.group (.star isDot)) .eol).run st = ⟨pos, [], some st.rest⟩ :: L := by
  obtain ⟨L, hL⟩ := stars_append_head h []
  have hs : stars isDot st.rest = [] :: L := by simpa [stars] using hL
  refine ⟨st.pos + st.rest.length, (L.map st.advance |>.map fun st' =>
    (⟨st'.pos, st'.rest, some (st.rest.take (st'.pos - st.pos))⟩ : MState)).flatMap Re.eol.run, ?_⟩
  simp [Re.run, hs, MState.advance]

theorem run_spaces_group_dots_eol (st : MState) (n : Nat) (r : List Char)
    (hrest : st.rest = spaces n ++ r) (hr : ∀ c cs, r = c :: cs → c ≠ ' ')
    (hdot : ∀ c ∈ r, isDot c = true) :
    ∃ pos L, (Re.seq (.star (isChar ' ')) (.seq (.group (.star isDot)) .eol)).run st
      = ⟨pos, [], some r⟩ :: L := by
  have hsp : ∀ c ∈ spaces n, isChar ' ' c = true := by
    intro c hc
    simp [spaces] at hc
    simp [isChar, hc.2]
  obtain ⟨L, hL⟩ := stars_append_head hsp r
  have hstop : stars (isChar ' ') r = [r] :=
    stars_of_stop (fun c cs h => by simpa [isChar] using hr c cs h)
  obtain ⟨pos, L', hrun⟩ := run_group_dots_eol (st.advance r) (by simpa [MState.advance] using hdot)
  refine ⟨pos, L' ++ (L.map st.advance).flatMap (Re.seq (.group (.star isDot)) .eol).run, ?_⟩
  rw [Re.run, Re.run, hrest, hL, hstop]
  simp only [List.singleton_append, List.map_cons, List.flatMap_cons]
  rw [hrun]
  simp [MState.advance]

theorem run_parentRegexp (a t : List Char) (ha : a ≠ []) (hcomma : ∀ c ∈ a, c ≠ ',') (n : Nat)
    (r : List Char) (ht : t = spaces n ++ r) (hr : ∀ c cs, r = c :: cs → c ≠ ' ')
    (hdot : ∀ c ∈ r, isDot c = true) :
    ∃ pos L, parentRegexp.run ⟨0, a ++ ',' :: t, none⟩ = ⟨pos, [], some r⟩ :: L := by
  obtain ⟨x, a', rfl⟩ := List.exists_cons_of_ne_nil ha
  have hx : notComma x = true := by simpa [notComma] using hcomma x (by simp)
  have ha' : ∀ c ∈ a', notComma c = true := fun c hc => by
    simpa [notComma] using hcomma c (by simp [hc])
  obtain ⟨pos, L, hrun⟩ := run_spaces_group_dots_eol
    ((MState.advance (MState.advance ⟨0, x :: a' ++ ',' :: t, none⟩ (',' :: t)) t)) n r
    (by simpa [MState.advance] using ht) hr hdot
  refine ⟨pos, L, ?_⟩
  rw [← hrun]
  simp only [parentRegexp, Re.run, List.cons_append, hx, if_true, List.flatMap_cons,
    List.flatMap_nil, List.append_nil, List.flatMap_map]
  rw [stars_flatMap_skip _ _ ha', stars_cons_neg _ (by simp [notComma])]
  · simp [MState.advance, isChar, Re.run]
  · intro c cs hc
    have : c ≠ ',' := by simpa [notComma] using hc
    simp [MState.advance, isChar, this, Re.run]

theorem getParentObject_of_run {ou : String} (hne : ou ≠ "") {pos : Nat} {rest r : List Char}
    {L : List MState} (h : parentRegexp.run ⟨0, ou.data, none⟩ = ⟨pos, rest, some r⟩ :: L) :
    getParentObject ou = .ret (String.mk r) := by
  have h0 : parentRegexp.findAt ou.data 0
      = some [String.mk (ou.data.take pos), String.mk r] := by
    have hg : parentRegexp.hasGroup = true := rfl
    simp [Re.findAt, h, hg]
  have hf : parentRegexp.findStringSubmatch ou.data
      = some [String.mk (ou.data.take pos), String.mk r] := by
    rw [Re.findStringSubmatch, List.range_succ_eq_map, List.findSome?_cons_of_isSome _ (by simp [h0]),
      h0]
  simp [getParentObject, hne, hf]

theorem getParentObject_eq (first rest : String) (n : Nat) (h1 : first ≠ "")
    (h2 : ',' ∉ first.data) (h3 : ∀ c cs, rest.data = c :: cs → c ≠ ' ')
    (h4 : '\n' ∉ rest.data) :
    getParentObject (first ++ "," ++ String.mk (spaces n) ++ rest) = .ret rest := by
  have hfirst : first.data ≠ [] := fun h => h1 (String.ext h)
  obtain ⟨pos, L, hrun⟩ := run_parentRegexp first.data (spaces n ++ rest.data) hfirst
    (fun c hc hcc => h2 (hcc ▸ hc)) n rest.data rfl h3
    (fun c hc => by
      have : c ≠ '\n' := fun hcc => h4 (hcc ▸ hc)
      simpa [isDot] using this)
  have hdata : (first ++ "," ++ String.mk (spaces n) ++ rest).data
      = first.data ++ ',' :: (spaces n ++ rest.data) := by
    simp [String.data_append]
  have hne : first ++ "," ++ String.mk (spaces n) ++ rest ≠ "" := by
    intro h
    have := congrArg String.data h
    rw [hdata] at this
    simp at this
  have := getParentObject_of_run hne (hdata ▸ hrun)
  simpa using this

/-! ## Matching anywhere in the text -/

theorem findAt_isSome (re : Re) (text : List Char) (i : Nat) :
    (re.findAt text i).isSome = true ↔ re.run ⟨i, text.drop i, none⟩ ≠ [] := by
  unfold Re.findAt
  split <;> simp_all

theorem matchString_iff (re : Re) (text : List Char) :
    re.matchString text = true ↔
      ∃ i, i ≤ text.length ∧ re.run ⟨i, text.drop i, none⟩ ≠ [] := by
  unfold Re.matchString Re.findStringSubmatch
  rw [List.findSome?_isSome_iff]
  constructor
  · rintro ⟨i, hi, h⟩
    exact ⟨i, by simpa [Nat.lt_succ_iff] using hi, (findAt_isSome re text i).1 h⟩
  · rintro ⟨i, hi, h⟩
    exact ⟨i, by simpa [Nat.lt_succ_iff] using hi, (findAt_isSome re text i).2 h⟩

theorem mem_run_seq {a b : Re} {st st' : MState} :
    st' ∈ (Re.seq a b).run st ↔ ∃ m, m ∈ a.run st ∧ st' ∈ b.run m := by
  simp [Re.run]

theorem mem_run_cls {p : Char → Bool} {st st' : MState} :
    st' ∈ (Re.cls p).run st ↔
      ∃ c cs, st.rest = c :: cs ∧ p c = true ∧ st' = st.advance cs := by
  unfold Re.run
  split
  · rename_i c cs h
    by_cases hp : p c = true
    · rw [if_pos hp, List.mem_singleton]
      constructor
      · intro e
        exact ⟨c, cs, h, hp, e⟩
      · rintro ⟨d, ds, hd, _, e⟩
        rw [h] at hd
        cases hd
        exact e
    · rw [if_neg hp]
      constructor
      · intro e
        cases e
      · rintro ⟨d, ds, hd, hpd, _⟩
        rw [h] at hd
        cases hd
        exact absurd hpd hp
  · rename_i h
    constructor
    · intro e
      cases e
    · rintro ⟨d, ds, hd, _, _⟩
      rw [h] at hd
      cases hd

theorem mem_run_star {p : Char → Bool} {st st' : MState} :
    st' ∈ (Re.star p).run st ↔ ∃ r, r ∈ stars p st.rest ∧ st' = st.advance r := by
  simp [Re.run, eq_comm]

theorem mem_run_plus {p : Char → Bool} {st st' : MState} :
    st' ∈ (Re.plus p).run st ↔
      ∃ c cs r, st.rest = c :: cs ∧ p c = true ∧ r ∈ stars p cs ∧ st' = st.advance r := by
  unfold Re.run
  split
  · rename_i c cs h
    by_cases hp : p c = true
    · rw [if_pos hp, List.mem_map]
      constructor
      · rintro ⟨r, hr, e⟩
        exact ⟨c, cs, r, h, hp, hr, e.symm⟩
      · rintro ⟨d, ds, r, hd, _, hr, e⟩
        rw [h] at hd
        cases hd
        exact ⟨r, hr, e.symm⟩
    · rw [if_neg hp]
      constructor
      · intro e
        cases e
      · rintro ⟨d, ds, r, hd, hpd, _, _⟩
        rw [h] at hd
        cases hd
        exact absurd hpd hp
  · rename_i h
    constructor
    · intro e
      cases e
    · rintro ⟨d, ds, r, hd, _, _, _⟩
      rw [h] at hd
      cases hd

theorem ne_nil_iff_exists_mem {α : Type} (l : List α) : l ≠ [] ↔ ∃ x, x ∈ l := by
  constructor
  · exact List.exists_mem_of_ne_nil l
  · rintro ⟨x, hx⟩
    exact List.ne_nil_of_mem hx

/-! ## The pattern of the containment check -/

theorem baseTail_cons {c : Char} {cs : List Char} {r : Re} (h : baseTail (c :: cs) = some r) :
    ∃ a r', baseAtom c = some a ∧ baseTail cs = some r' ∧ r = .seq a r' := by
  unfold baseTail at h
  split at h
  · rename_i a r' ha hr
    exact ⟨a, r', ha, hr, by simpa using h.symm⟩
  · simp at h

theorem baseAtom_run_self {c : Char} {a : Re} (h : baseAtom c = some a) (pos : Nat)
    (cs : List Char) (cap : Option (List Char)) :
    a.run ⟨pos, c :: cs, cap⟩ = [⟨pos + 1, cs, cap⟩] := by
  unfold baseAtom at h
  split at h
  · rename_i hc
    have ha : a = .cls isDot := by simpa using h.symm
    subst ha
    subst hc
    simp [Re.run, MState.advance, isDot]
  · split at h
    · simp at h
    · have ha : a = .cls (isChar c) := by simpa using h.symm
      subst ha
      simp [Re.run, MState.advance, isChar]

theorem baseTail_run_self {b : List Char} {r : Re} (h : baseTail b = some r) (pos : Nat)
    (cap : Option (List Char)) : r.run ⟨pos, b, cap⟩ ≠ [] := by
  induction b generalizing r pos with
  | nil =>
    have hr : r = .eol := by simpa [baseTail] using h.symm
    subst hr
    simp [Re.run]
  | cons c cs ih =>
    obtain ⟨a, r', ha, hr', rfl⟩ := baseTail_cons h
    rw [Re.run, baseAtom_run_self ha]
    simpa using ih hr' (pos + 1)

theorem baseTail_literal {b : List Char} (hb : ∀ c ∈ b, isMeta c = false) :
    ∃ r, baseTail b = some r ∧ ∀ st : MState, r.run st ≠ [] ↔ st.rest = b := by
  induction b with
  | nil =>
    refine ⟨.eol, rfl, fun st => ?_⟩
    simp [Re.run]
  | cons c cs ih =>
    obtain ⟨r', hr', hiff⟩ := ih (fun d hd => hb d (by simp [hd]))
    have hc : isMeta c = false := hb c (by simp)
    have hdot : c ≠ '.' := by
      rintro rfl
      simp [isMeta] at hc
    have hatom : baseAtom c = some (.cls (isChar c)) := by
      simp [baseAtom, hdot, hc]
    refine ⟨.seq (.cls (isChar c)) r', by simp [baseTail, hatom, hr'], fun st => ?_⟩
    rw [ne_nil_iff_exists_mem]
    constructor
    · rintro ⟨x, hx⟩
      obtain ⟨m, hm, hxm⟩ := mem_run_seq.1 hx
      obtain ⟨d, ds, hrest, hd, rfl⟩ := mem_run_cls.1 hm
      have : (st.advance ds).rest = cs := (hiff _).1 (List.ne_nil_of_mem hxm)
      have hdc : d = c := by simpa [isChar] using hd
      simp [hrest, hdc]
      simpa [MState.advance] using this
    · intro hrest
      have h2 : r'.run (st.advance cs) ≠ [] := (hiff _).2 (by simp [MState.advance])
      obtain ⟨x, hx⟩ := List.exists_mem_of_ne_nil _ h2
      exact ⟨x, mem_run_seq.2 ⟨st.advance cs, mem_run_cls.2 ⟨c, cs, hrest, by simp [isChar], rfl⟩, hx⟩⟩

theorem basePattern_run_ne_nil_iff (r : Re) (st : MState) :
    (Re.seq (.star isDot) (.seq (.cls (isChar ',')) (.seq (.star (isChar ' ')) r))).run st ≠ [] ↔
      ∃ u v, (',' :: u) ∈ stars isDot st.rest ∧ v ∈ stars (isChar ' ') u ∧
        r.run (((st.advance (',' :: u)).advance u).advance v) ≠ [] := by
  rw [ne_nil_iff_exists_mem]
  constructor
  · rintro ⟨x, hx⟩
    obtain ⟨m₁, hm₁, hx⟩ := mem_run_seq.1 hx
    obtain ⟨r₁, hr₁, rfl⟩ := mem_run_star.1 hm₁
    obtain ⟨m₂, hm₂, hx⟩ := mem_run_seq.1 hx
    obtain ⟨c, u, hrest, hc, rfl⟩ := mem_run_cls.1 hm₂
    obtain ⟨m₃, hm₃, hx⟩ := mem_run_seq.1 hx
    obtain ⟨v, hv, rfl⟩ := mem_run_star.1 hm₃
    have hcc : c = ',' := by simpa [isChar] using hc
    subst hcc
    have hr : r₁ = ',' :: u := by simpa [MState.advance] using hrest
    subst hr
    exact ⟨u, v, hr₁, by simpa [MState.advance] using hv, List.ne_nil_of_mem hx⟩
  · rintro ⟨u, v, hu, hv, hr⟩
    obtain ⟨x, hx⟩ := List.exists_mem_of_ne_nil _ hr
    refine ⟨x, mem_run_seq.2 ⟨st.advance (',' :: u), mem_run_star.2 ⟨_, hu, rfl⟩, ?_⟩⟩
    refine mem_run_seq.2 ⟨(st.advance (',' :: u)).advance u,
      mem_run_cls.2 ⟨',', u, by simp [MState.advance], by simp [isChar], rfl⟩, ?_⟩
    exact mem_run_seq.2 ⟨_, mem_run_star.2 ⟨v, by simpa [MState.advance] using hv, rfl⟩, hx⟩

theorem eq_spaces_of_all {l : List Char} (h : ∀ c ∈ l, isChar ' ' c = true) :
    l = spaces l.length := by
  unfold spaces
  rw [List.eq_replicate_iff]
  exact ⟨rfl, fun c hc => by simpa [isChar] using h c hc⟩

theorem all_spaces (n : Nat) : ∀ c ∈ spaces n, isChar ' ' c = true := by
  intro c hc
  simp [spaces] at hc
  simp [isChar, hc.2]

theorem isLiteral_iff (s : String) : isLiteral s = true ↔ ∀ c ∈ s.data, isMeta c = false := by
  simp [isLiteral]

theorem withinSearchBase_literal (rx : MatchString) (base d : String)
    (hb : isLiteral base = true) :
    withinSearchBase rx base d = true ↔
      ∃ (pre : List Char) (n : Nat), d.data = pre ++ ',' :: (spaces n ++ base.data) := by
  obtain ⟨r, hr, hiff⟩ := baseTail_literal ((isLiteral_iff base).1 hb)
  have hw : withinSearchBase rx base d
      = (Re.seq (.star isDot) (.seq (.cls (isChar ',')) (.seq (.star (isChar ' ')) r))).matchString
          d.data := by
    simp [withinSearchBase, basePattern, hr]
  rw [hw, matchString_iff]
  constructor
  · rintro ⟨i, _, hrun⟩
    obtain ⟨u, v, hu, hv, hrv⟩ := (basePattern_run_ne_nil_iff r _).1 hrun
    obtain ⟨a, ha, _⟩ := exists_of_mem_stars hu
    obtain ⟨sp, hsp, hall⟩ := exists_of_mem_stars hv
    have hvb : v = base.data := by simpa [MState.advance] using (hiff _).1 hrv
    refine ⟨d.data.take i ++ a, sp.length, ?_⟩
    have hd : d.data = d.data.take i ++ d.data.drop i := (List.take_append_drop i d.data).symm
    have ha' : d.data.drop i = a ++ ',' :: u := by simpa using ha
    rw [List.append_assoc, ← eq_spaces_of_all hall, ← hvb, ← hsp, ← ha']
    exact hd
  · rintro ⟨pre, n, hd⟩
    refine ⟨pre.length, by simp [hd], ?_⟩
    rw [basePattern_run_ne_nil_iff]
    refine ⟨spaces n ++ base.data, base.data, ?_, ?_, ?_⟩
    · simpa [hd] using mem_stars_self isDot (',' :: (spaces n ++ base.data))
    · exact mem_stars_append (all_spaces n) (mem_stars_self _ _)
    · exact (hiff _).2 (by simp [MState.advance])

theorem basePattern_of_isSome {base : String} (hb : (basePattern base).isSome = true) :
    ∃ r, baseTail base.data = some r ∧
      basePattern base
        = some (.seq (.star isDot) (.seq (.cls (isChar ',')) (.seq (.star (isChar ' ')) r))) := by
  unfold basePattern at hb ⊢
  cases hr : baseTail base.data with
  | none => simp [hr] at hb
  | some r => exact ⟨r, rfl, rfl⟩

theorem withinSearchBase_congr (rx rx' : MatchString) {base : String}
    (hb : (basePattern base).isSome = true) (ou : String) :
    withinSearchBase rx base ou = withinSearchBase rx' base ou := by
  obtain ⟨r, _, hp⟩ := basePattern_of_isSome hb
  simp [withinSearchBase, hp]

theorem withinSearchBase_of_suffix (rx : MatchString) (base d : String)
    (hb : (basePattern base).isSome = true)
    (pre : List Char) (n : Nat) (hd : d.data = pre ++ ',' :: (spaces n ++ base.data)) :
    withinSearchBase rx base d = true := by
  obtain ⟨r, hr, hp⟩ := basePattern_of_isSome hb
  simp only [withinSearchBase, hp]
  rw [matchString_iff]
  refine ⟨pre.length, by simp [hd], ?_⟩
  rw [basePattern_run_ne_nil_iff]
  refine ⟨spaces n ++ base.data, base.data, ?_, ?_, ?_⟩
  · simpa [hd] using mem_stars_self isDot (',' :: (spaces n ++ base.data))
  · exact mem_stars_append (all_spaces n) (mem_stars_self _ _)
  · exact baseTail_run_self hr _ _

theorem comma_mem_of_withinSearchBase (rx : MatchString) {base d : String}
    (hb : (basePattern base).isSome = true)
    (h : withinSearchBase rx base d = true) : ',' ∈ d.data := by
  obtain ⟨r, hr, hp⟩ := basePattern_of_isSome hb
  simp only [withinSearchBase, hp] at h
  obtain ⟨i, _, hrun⟩ := (matchString_iff _ _).1 h
  obtain ⟨u, v, hu, _, _⟩ := (basePattern_run_ne_nil_iff r _).1 hrun
  obtain ⟨a, ha, _⟩ := exists_of_mem_stars hu
  have ha' : d.data.drop i = a ++ ',' :: u := by simpa using ha
  have : ',' ∈ d.data.drop i := by simp [ha']
  exact List.mem_of_mem_drop this

theorem withinSearchBase_empty (rx : MatchString) {base : String}
    (hb : (basePattern base).isSome = true) : withinSearchBase rx base "" = false := by
  cases h : withinSearchBase rx base "" with
  | false => rfl
  | true =>
    have := comma_mem_of_withinSearchBase rx hb h
    simp at this

/-! ## Patterns anchored at the beginning of the text -/

theorem run_bol_seq_of_pos (r : Re) {i : Nat} (hi : i ≠ 0) (t : List Char)
    (cap : Option (List Char)) : (Re.seq .bol r).run ⟨i, t, cap⟩ = [] := by
  simp [Re.run, hi]

theorem run_bol_seq_zero (r : Re) (t : List Char) (cap : Option (List Char)) :
    (Re.seq .bol r).run ⟨0, t, cap⟩ = r.run ⟨0, t, cap⟩ := by
  simp [Re.run]

theorem matchString_bol (r : Re) (text : List Char) :
    (Re.seq .bol r).matchString text = true ↔ r.run ⟨0, text, none⟩ ≠ [] := by
  rw [matchString_iff]
  constructor
  · rintro ⟨i, _, h⟩
    by_cases hi : i = 0
    · subst hi
      simpa [run_bol_seq_zero] using h
    · exact absurd (run_bol_seq_of_pos r hi _ _) h
  · intro h
    exact ⟨0, by simp, by simpa [run_bol_seq_zero] using h⟩

theorem findStringSubmatch_bol (r : Re) (text : List Char) :
    (Re.seq .bol r).findStringSubmatch text = (Re.seq .bol r).findAt text 0 := by
  rw [Re.findStringSubmatch, List.range_succ_eq_map, List.findSome?_cons]
  cases h : (Re.seq .bol r).findAt text 0 with
  | some b => rfl
  | none =>
    simp only
    rw [List.findSome?_eq_none_iff]
    intro x hx
    obtain ⟨j, _, rfl⟩ := List.mem_map.1 hx
    simp [Re.findAt, run_bol_seq_of_pos]

theorem ouKeyRegexp_matchString (text : List Char) :
    ouKeyRegexp.matchString text = true ↔
      ∃ o u t, text = o :: u :: '=' :: t ∧ (o = 'o' ∨ o = 'O') ∧ (u = 'u' ∨ u = 'U') := by
  unfold ouKeyRegexp
  rw [matchString_bol, ne_nil_iff_exists_mem]
  constructor
  · rintro ⟨x, hx⟩
    obtain ⟨m₁, hm₁, hx⟩ := mem_run_seq.1 hx
    obtain ⟨o, t₁, h₁, ho, rfl⟩ := mem_run_cls.1 hm₁
    obtain ⟨m₂, hm₂, hx⟩ := mem_run_seq.1 hx
    obtain ⟨u, t₂, h₂, hu, rfl⟩ := mem_run_cls.1 hm₂
    obtain ⟨e, t₃, h₃, he, rfl⟩ := mem_run_cls.1 hx
    simp only [MState.advance] at h₁ h₂ h₃
    have hee : e = '=' := by simpa [isChar] using he
    subst hee
    refine ⟨o, u, t₃, by rw [h₁, h₂, h₃], ?_, ?_⟩
    · simpa [foldChar] using ho
    · simpa [foldChar] using hu
  · rintro ⟨o, u, t, rfl, ho, hu⟩
    refine ⟨_, mem_run_seq.2 ⟨_, mem_run_cls.2 ⟨o, _, rfl, by simpa [foldChar] using ho, rfl⟩,
      mem_run_seq.2 ⟨_, mem_run_cls.2 ⟨u, _, rfl, by simpa [foldChar] using hu, rfl⟩,
        mem_run_cls.2 ⟨'=', t, rfl, by simp [isChar], rfl⟩⟩⟩⟩

/-! ## The pattern of the naming value -/

theorem run_dots_eol (st : MState) (h : ∀ c ∈ st.rest, isDot c = true) :
    ∃ pos L, (Re.seq (.star isDot) .eol).run st = ⟨pos, [], st.cap⟩ :: L := by
  obtain ⟨L, hL⟩ := stars_append_head h []
  have hs : stars isDot st.rest = [] :: L := by simpa [stars] using hL
  exact ⟨st.pos + st.rest.length, (L.map st.advance).flatMap Re.eol.run, by
    simp [Re.run, hs, MState.advance]⟩

theorem run_group_value (st : MState) (v t : List Char) (hrest : st.rest = v ++ ',' :: t)
    (hv : v ≠ []) (hcomma : ∀ c ∈ v, c ≠ ',') :
    ∃ pos L, (Re.group (.plus notComma)).run st = ⟨pos, ',' :: t, some v⟩ :: L := by
  obtain ⟨x, v', rfl⟩ := List.exists_cons_of_ne_nil hv
  have hx : notComma x = true := by simpa [notComma] using hcomma x (by simp)
  have hv' : ∀ c ∈ v', notComma c = true := fun c hc => by
    simpa [notComma] using hcomma c (by simp [hc])
  obtain ⟨L₁, hL₁⟩ := stars_append_head hv' (',' :: t)
  rw [stars_cons_neg _ (by simp [notComma])] at hL₁
  have hn : v'.length + (t.length + 1) + 1 - (t.length + 1) = v'.length + 1 := by omega
  have htake : List.take (v'.length + 1) (x :: (v' ++ ',' :: t)) = x :: v' := by
    simp
  refine ⟨st.pos + (v'.length + 1), (L₁.map st.advance).map fun st' =>
    (⟨st'.pos, st'.rest, some (st.rest.take (st'.pos - st.pos))⟩ : MState), ?_⟩
  rw [Re.run, Re.run, hrest]
  simp only [List.cons_append, hx, if_true, hL₁, List.singleton_append, List.map_cons]
  simp [MState.advance, hrest, hn, htake]

theorem run_value_tail (st : MState) (v t : List Char) (hrest : st.rest = v ++ ',' :: t)
    (hv : v ≠ []) (hcomma : ∀ c ∈ v, c ≠ ',') (hdot : ∀ c ∈ t, isDot c = true) :
    ∃ pos L, (Re.seq (.group (.plus notComma)) (.seq (.star isDot) .eol)).run st
      = ⟨pos, [], some v⟩ :: L := by
  obtain ⟨p₁, L₁, h₁⟩ := run_group_value st v t hrest hv hcomma
  obtain ⟨pos, L₂, h₂⟩ := run_dots_eol ⟨p₁, ',' :: t, some v⟩ (by
    intro c hc
    rcases List.mem_cons.1 hc with rfl | hc
    · simp [isDot]
    · exact hdot c hc)
  refine ⟨pos, L₂ ++ L₁.flatMap (Re.seq (.star isDot) .eol).run, ?_⟩
  rw [Re.run, h₁, List.flatMap_cons, h₂]
  rfl

theorem run_ouRegexp (o u : Char) (v t : List Char) (ho : o = 'o' ∨ o = 'O')
    (hu : u = 'u' ∨ u = 'U') (hv : v ≠ []) (hcomma : ∀ c ∈ v, c ≠ ',')
    (hdot : ∀ c ∈ t, isDot c = true) :
    ∃ pos L, ouRegexp.run ⟨0, o :: u :: '=' :: (v ++ ',' :: t), none⟩
      = ⟨pos, [], some v⟩ :: L := by
  have hfo : foldChar 'o' 'O' o = true := by simpa [foldChar] using ho
  have hfu : foldChar 'u' 'U' u = true := by simpa [foldChar] using hu
  obtain ⟨pos, L, h⟩ := run_value_tail ⟨3, v ++ ',' :: t, none⟩ v t rfl hv hcomma hdot
  refine ⟨pos, L, ?_⟩
  rw [← h]
  unfold ouRegexp
  rw [run_bol_seq_zero]
  rw [Re.run]
  have h1 : (Re.cls (foldChar 'o' 'O')).run ⟨0, o :: u :: '=' :: (v ++ ',' :: t), none⟩
      = [⟨1, u :: '=' :: (v ++ ',' :: t), none⟩] := by
    simp [Re.run, hfo, MState.advance]
  rw [h1, List.flatMap_cons, List.flatMap_nil, List.append_nil, Re.run]
  have h2 : (Re.cls (foldChar 'u' 'U')).run ⟨1, u :: '=' :: (v ++ ',' :: t), none⟩
      = [⟨2, '=' :: (v ++ ',' :: t), none⟩] := by
    simp [Re.run, hfu, MState.advance]
  rw [h2, List.flatMap_cons, List.flatMap_nil, List.append_nil, Re.run]
  have h3 : (Re.cls (isChar '=')).run ⟨2, '=' :: (v ++ ',' :: t), none⟩
      = [⟨3, v ++ ',' :: t, none⟩] := by
    simp [Re.run, isChar, MState.advance]
  rw [h3, List.flatMap_cons, List.flatMap_nil, List.append_nil]

theorem findStringSubmatch_ouRegexp (o u : Char) (v t : List Char) (ho : o = 'o' ∨ o = 'O')
    (hu : u = 'u' ∨ u = 'U') (hv : v ≠ []) (hcomma : ∀ c ∈ v, c ≠ ',')
    (hdot : ∀ c ∈ t, isDot c = true) :
    ∃ whole, ouRegexp.findStringSubmatch (o :: u :: '=' :: (v ++ ',' :: t))
      = some [whole, String.mk v] := by
  obtain ⟨pos, L, h⟩ := run_ouRegexp o u v t ho hu hv hcomma hdot
  have hg : ouRegexp.hasGroup = true := rfl
  refine ⟨String.mk ((o :: u :: '=' :: (v ++ ',' :: t)).take pos), ?_⟩
  have hb : ouRegexp.findStringSubmatch (o :: u :: '=' :: (v ++ ',' :: t))
      = ouRegexp.findAt (o :: u :: '=' :: (v ++ ',' :: t)) 0 := findStringSubmatch_bol _ _
  rw [hb]
  simp [Re.findAt, h, hg]

/-! ## The parent is shorter -/

theorem mem_run_bol {st st' : MState} : st' ∈ Re.bol.run st ↔ st.pos = 0 ∧ st' = st := by
  unfold Re.run
  split <;> simp_all

theorem mem_run_eol {st st' : MState} : st' ∈ Re.eol.run st ↔ st.rest = [] ∧ st' = st := by
  unfold Re.run
  split <;> simp_all

theorem mem_run_group {r : Re} {st st' : MState} :
    st' ∈ (Re.group r).run st ↔
      ∃ m, m ∈ r.run st ∧ st' = ⟨m.pos, m.rest, some (st.rest.take (m.pos - st.pos))⟩ := by
  simp [Re.run, eq_comm]

theorem cap_length_of_mem_parentRegexp {text : List Char} {st : MState}
    (h : st ∈ parentRegexp.run ⟨0, text, none⟩) : (st.cap.getD []).length < text.length := by
  unfold parentRegexp at h
  obtain ⟨m₀, hm₀, h⟩ := mem_run_seq.1 h
  obtain ⟨-, rfl⟩ := mem_run_bol.1 hm₀
  obtain ⟨m₁, hm₁, h⟩ := mem_run_seq.1 h
  obtain ⟨c, cs, r₁, htext, -, hr₁, rfl⟩ := mem_run_plus.1 hm₁
  obtain ⟨m₂, hm₂, h⟩ := mem_run_seq.1 h
  obtain ⟨c₂, cs₂, h₂, -, rfl⟩ := mem_run_cls.1 hm₂
  obtain ⟨m₃, hm₃, h⟩ := mem_run_seq.1 h
  obtain ⟨r₃, hr₃, rfl⟩ := mem_run_star.1 hm₃
  obtain ⟨m₄, hm₄, h⟩ := mem_run_seq.1 h
  obtain ⟨m, -, rfl⟩ := mem_run_group.1 hm₄
  obtain ⟨-, rfl⟩ := mem_run_eol.1 h
  simp only [MState.advance] at htext h₂ hr₃
  have l₁ := length_le_of_mem_stars hr₁
  have l₃ := length_le_of_mem_stars hr₃
  subst htext
  subst h₂
  simp only [MState.advance, Option.getD_some, List.length_take, List.length_cons] at *
  omega

theorem getParentObject_length {ou parent : String} (h : getParentObject ou = .ret parent) :
    parent.length < ou.length := by
  unfold getParentObject at h
  split at h
  · cases h
  · rename_i hne
    have hpos : 0 < ou.length := by
      cases ou with
      | mk l =>
        cases l with
        | nil => exact absurd rfl hne
        | cons c cs => simp [String.length]
    have hb : parentRegexp.findStringSubmatch ou.data = parentRegexp.findAt ou.data 0 :=
      findStringSubmatch_bol _ _
    rw [hb] at h
    unfold Re.findAt at h
    have hg : parentRegexp.hasGroup = true := rfl
    cases hrun : parentRegexp.run ⟨0, List.drop 0 ou.data, none⟩ with
    | nil =>
      rw [hrun] at h
      simp only [Outcome.ret.injEq] at h
      subst h
      simpa using hpos
    | cons st L =>
      rw [hrun] at h
      simp only [hg, if_true, Outcome.ret.injEq] at h
      subst h
      have hmem : st ∈ parentRegexp.run ⟨0, ou.data, none⟩ := by
        rw [List.drop_zero] at hrun
        rw [hrun]
        exact List.mem_cons_self _ _
      exact cap_length_of_mem_parentRegexp hmem

/-! ## The existence probe -/

theorem ouExists_world {σ : Type} (D : Directory σ) (base ou : String) (w : World σ) :
    (ouExists D base ou w).2
      = ⟨(D.search w.dir base (ouFilter ou) ["distinguishedName"]).2,
         w.log ++ [existsSearch base ou]⟩ := by
  unfold ouExists ldapSearch
  cases h : (D.search w.dir base (ouFilter ou) ["distinguishedName"]).1 with
  | error e => rfl
  | ok entries =>
    simp only
    split
    · rfl
    · split <;> rfl

theorem ouExists_of_error {σ : Type} (D : Directory σ) (base ou : String) (w : World σ)
    {err : String} (h : (D.search w.dir base (ouFilter ou) ["distinguishedName"]).1 = .error err) :
    (ouExists D base ou w).1 = (false, some err) := by
  simp [ouExists, ldapSearch, h]

theorem ouExists_of_ok {σ : Type} (D : Directory σ) (base ou : String) (w : World σ)
    {entries : List String}
    (h : (D.search w.dir base (ouFilter ou) ["distinguishedName"]).1 = .ok entries) :
    (ouExists D base ou w).1 =
      if entries.length = 1 then (true, none)
      else if entries.length > 1 then (false, some (tooManyResults ou))
      else (false, none) := by
  simp only [ouExists, ldapSearch, h]
  split
  · rfl
  · split <;> rfl

theorem ouExists_of_none {σ : Type} (D : Directory σ) (base ou : String) (w : World σ)
    (h : (D.search w.dir base (ouFilter ou) ["distinguishedName"]).1 = .ok []) :
    ouExists D base ou w
      = ((false, none), ⟨(D.search w.dir base (ouFilter ou) ["distinguishedName"]).2,
          w.log ++ [existsSearch base ou]⟩) := by
  apply Prod.ext
  · rw [ouExists_of_ok D base ou w h]
    simp
  · exact ouExists_world D base ou w

theorem ouExists_of_one {σ : Type} (D : Directory σ) (base ou : String) (w : World σ)
    {e : String} (h : (D.search w.dir base (ouFilter ou) ["distinguishedName"]).1 = .ok [e]) :
    ouExists D base ou w
      = ((true, none), ⟨(D.search w.dir base (ouFilter ou) ["distinguishedName"]).2,
          w.log ++ [existsSearch base ou]⟩) := by
  apply Prod.ext
  · rw [ouExists_of_ok D base ou w h]
    simp
  · exact ouExists_world D base ou w

/-! ## The reference directory -/

theorem ouFilter_injective {a b : String} (h : ouFilter a = ouFilter b) : a = b := by
  unfold ouFilter at h
  have h' := congrArg String.data h
  simp only [String.data_append] at h'
  have h₁ := List.append_cancel_right h'
  have h₂ := List.append_cancel_left h₁
  exact String.ext h₂

theorem memDir_search_absent (s : List String) (base dn : String) (attrs : List String)
    (h : dn ∉ s) : memDir.search s base (ouFilter dn) attrs = (.ok [], s) := by
  have : (s.filter fun d => decide (ouFilter d = ouFilter dn)) = [] := by
    rw [List.filter_eq_nil_iff]
    intro d hd hf
    have : d = dn := ouFilter_injective (by simpa using hf)
    exact h (this ▸ hd)
  simp [memDir, this]

theorem memDir_del_removes (s : List String) (dn : String) (h : (memDir.del s dn).1 = none)
    (b : String) :
    (memDir.search (memDir.del s dn).2 b (ouFilter dn) ["distinguishedName"]).1 = .ok [] := by
  by_cases hmem : dn ∈ s
  · have hd : (memDir.del s dn).2 = s.filter fun d => decide (d ≠ dn) := by
      simp [memDir, hmem]
    rw [hd, memDir_search_absent]
    simp
  · simp [memDir, hmem] at h

theorem memDir_add_found (s : List String) (dn : String) (attrs : List (String × List String))
    (h : (memDir.add s dn attrs).1 = none) (b : String) :
    ∃ e, (memDir.search (memDir.add s dn attrs).2 b (ouFilter dn) ["distinguishedName"]).1
      = .ok [e] := by
  by_cases hmem : dn ∈ s
  · simp [memDir, hmem] at h
  · refine ⟨dn, ?_⟩
    have hd : (memDir.add s dn attrs).2 = s ++ [dn] := by simp [memDir, hmem]
    have h₁ : (s.filter fun d => decide (ouFilter d = ouFilter dn)) = [] := by
      rw [List.filter_eq_nil_iff]
      intro d hd hf
      have : d = dn := ouFilter_injective (by simpa using hf)
      exact hmem (this ▸ hd)
    rw [hd]
    simp [memDir, List.filter_append, h₁]

/-! ## Deleting -/

theorem deleteOU_of_none {σ : Type} (D : Directory σ) (base ou : String) (w : World σ)
    (h : (D.search w.dir base (ouFilter ou) ["distinguishedName"]).1 = .ok []) :
    deleteOU D base ou w
      = (none, ⟨(D.search w.dir base (ouFilter ou) ["distinguishedName"]).2,
          w.log ++ [existsSearch base ou]⟩) := by
  simp [deleteOU, ouExists_of_none D base ou w h]

theorem deleteOU_success_cases {σ : Type} (D : Directory σ) (base ou : String) (w : World σ)
    (h : (deleteOU D base ou w).1 = none) :
    ((D.search w.dir base (ouFilter ou) ["distinguishedName"]).1 = .ok [] ∧
      (deleteOU D base ou w).2.dir = (D.search w.dir base (ouFilter ou) ["distinguishedName"]).2) ∨
    ((D.del (D.search w.dir base (ouFilter ou) ["distinguishedName"]).2 ou).1 = none ∧
      (deleteOU D base ou w).2.dir
        = (D.del (D.search w.dir base (ouFilter ou) ["distinguishedName"]).2 ou).2) := by
  have hw := ouExists_world D base ou w
  cases hs : (D.search w.dir base (ouFilter ou) ["distinguishedName"]).1 with
  | error e =>
    have h₁ := ouExists_of_error D base ou w hs
    have : ouExists D base ou w = ((false, some e), (ouExists D base ou w).2) :=
      Prod.ext h₁ rfl
    rw [deleteOU, this] at h
    simp at h
  | ok entries =>
    have h₁ := ouExists_of_ok D base ou w hs
    by_cases h1 : entries.length = 1
    · rw [if_pos h1] at h₁
      have he : ouExists D base ou w = ((true, none), (ouExists D base ou w).2) :=
        Prod.ext h₁ rfl
      right
      rw [deleteOU, he, hw] at h ⊢
      simp only [clientDel] at h ⊢
      exact ⟨h, trivial⟩
    · rw [if_neg h1] at h₁
      by_cases h2 : entries.length > 1
      · rw [if_pos h2] at h₁
        have he : ouExists D base ou w
            = ((false, some (tooManyResults ou)), (ouExists D base ou w).2) := Prod.ext h₁ rfl
        rw [deleteOU, he] at h
        simp at h
      · have h0 : entries = [] := by
          cases entries with
          | nil => rfl
          | cons a l =>
            cases l with
            | nil => simp at h1
            | cons b l => simp at h2
        subst h0
        left
        refine ⟨rfl, ?_⟩
        rw [deleteOU_of_none D base ou w hs]

/-! ## Adding the entry -/

theorem addOU_cases {σ : Type} (D : Directory σ) (ou : String) (w : World σ) :
    addOU D ou w = (.panic, w) ∨
      ∃ attrs, addOU D ou w
        = (.ret (D.add w.dir ou attrs).1, ⟨(D.add w.dir ou attrs).2, w.log ++ [.add ou attrs]⟩) := by
  unfold addOU
  split
  · right
    exact ⟨_, rfl⟩
  · left
    rfl

theorem addOU_success {σ : Type} (D : Directory σ) (ou : String) (w w' : World σ)
    (h : addOU D ou w = (.ret none, w')) :
    ∃ attrs, (D.add w.dir ou attrs).1 = none ∧
      w' = ⟨(D.add w.dir ou attrs).2, w.log ++ [.add ou attrs]⟩ := by
  rcases addOU_cases D ou w with hp | ⟨attrs, ha⟩
  · rw [hp] at h
    simp at h
  · rw [ha] at h
    simp only [Prod.mk.injEq, Outcome.ret.injEq] at h
    exact ⟨attrs, h.1, h.2.symm⟩

theorem addOU_not_fatal {σ : Type} (D : Directory σ) (ou : String) (w : World σ) (msg : String) :
    (addOU D ou w).1 ≠ .fatal msg := by
  rcases addOU_cases D ou w with hp | ⟨attrs, ha⟩
  · rw [hp]
    simp
  · rw [ha]
    simp

theorem addOU_of_match {σ : Type} (D : Directory σ) (ou : String) (w : World σ)
    {whole cn : String} (h : ouRegexp.findStringSubmatch ou.data = some [whole, cn]) :
    addOU D ou w
      = (.ret (D.add w.dir ou [("objectClass", ["organizationalUnit"]), ("ou", [cn])]).1,
         ⟨(D.add w.dir ou [("objectClass", ["organizationalUnit"]), ("ou", [cn])]).2,
          w.log ++ [.add ou [("objectClass", ["organizationalUnit"]), ("ou", [cn])]]⟩) := by
  simp [addOU, h, clientAdd]

/-! ## Creating -/

theorem getParentObject_cases (ou : String) :
    (ou = "" ∧ getParentObject ou = .fatal "unable to get parent object of empty string") ∨
      (ou ≠ "" ∧ ∃ parent, getParentObject ou = .ret parent) := by
  by_cases h : ou = ""
  · left
    exact ⟨h, by simp [getParentObject, h]⟩
  · right
    refine ⟨h, ?_⟩
    unfold getParentObject
    rw [if_neg h]
    split
    · exact ⟨_, rfl⟩
    · exact ⟨_, rfl⟩

theorem createOUFuel_outside {σ : Type} (rx : MatchString) (D : Directory σ) (base ou : String)
    (cp : Bool) (w : World σ) (fuel : Nat) (h : withinSearchBase rx base ou = false) :
    createOUFuel rx D base (fuel + 1) ou cp w
      = some (.ret (some (outsideSearchBase ou base)), w) := by
  rw [createOUFuel]
  simp [h]

/-- One level of `createOU` depends on the library only through the check of its own DN
and on the bound only through the recursive call on the parent. -/
theorem createOUFuel_congr {σ : Type} (rx rx' : MatchString) (D : Directory σ) (base : String)
    (n m : Nat) (ou : String) (cp : Bool) (w : World σ)
    (hw : withinSearchBase rx base ou = withinSearchBase rx' base ou)
    (hrec : ∀ p w₂, getParentObject ou = .ret p →
      createOUFuel rx D base n p true w₂ = createOUFuel rx' D base m p true w₂) :
    createOUFuel rx D base (n + 1) ou cp w = createOUFuel rx' D base (m + 1) ou cp w := by
  rw [createOUFuel, createOUFuel, hw]
  split
  · rfl
  · split
    · rfl
    · rfl
    · split
      · rfl
      · rfl
      · rename_i parentOU hpar
        split
        · split
          · split
            · rfl
            · rfl
            · split
              · rw [hrec parentOU _ hpar]
              · rfl
          · rfl
        · rfl

theorem createOUFuel_succ {σ : Type} (rx : MatchString) (D : Directory σ) (base : String) :
    ∀ (fuel : Nat) (ou : String) (cp : Bool) (w : World σ), ou.length < fuel →
      createOUFuel rx D base fuel ou cp w = createOUFuel rx D base (fuel + 1) ou cp w := by
  intro fuel
  induction fuel with
  | zero =>
    intro ou cp w h
    omega
  | succ n ih =>
    intro ou cp w hlen
    refine createOUFuel_congr rx rx D base n (n + 1) ou cp w rfl ?_
    intro p w₂ hp
    have := getParentObject_length hp
    exact ih p true w₂ (by omega)

theorem createOUFuel_eq_createOU {σ : Type} (rx : MatchString) (D : Directory σ) (base : String)
    (fuel : Nat) (ou : String) (cp : Bool) (w : World σ) (h : ou.length < fuel) :
    createOUFuel rx D base fuel ou cp w = createOU rx D base ou cp w := by
  induction fuel with
  | zero => omega
  | succ n ih =>
    by_cases hn : ou.length < n
    · rw [← createOUFuel_succ rx D base n ou cp w hn]
      exact ih hn
    · have : n = ou.length := by omega
      subst this
      rfl

theorem createOU_congr {σ : Type} (rx rx' : MatchString) (D : Directory σ) (base : String)
    (hb : (basePattern base).isSome = true) (ou : String) (cp : Bool) (w : World σ) :
    createOU rx D base ou cp w = createOU rx' D base ou cp w := by
  have key : ∀ (fuel : Nat) (ou : String) (cp : Bool) (w : World σ),
      createOUFuel rx D base fuel ou cp w = createOUFuel rx' D base fuel ou cp w := by
    intro fuel
    induction fuel with
    | zero =>
      intro ou cp w
      rfl
    | succ n ih =>
      intro ou cp w
      exact createOUFuel_congr rx rx' D base n n ou cp w (withinSearchBase_congr rx rx' hb ou)
        (fun p w₂ _ => ih p true w₂)
  exact key _ ou cp w

theorem createOUFuel_total {σ : Type} (rx : MatchString) (D : Directory σ) (base : String) :
    ∀ (fuel : Nat) (ou : String) (cp : Bool) (w : World σ), ou.length < fuel →
      ∃ r, createOUFuel rx D base fuel ou cp w = some r := by
  intro fuel
  induction fuel with
  | zero =>
    intro ou cp w h
    omega
  | succ n ih =>
    intro ou cp w hlen
    rw [createOUFuel]
    split
    · exact ⟨_, rfl⟩
    · split
      · exact ⟨_, rfl⟩
      · exact ⟨_, rfl⟩
      · split
        · exact ⟨_, rfl⟩
        · exact ⟨_, rfl⟩
        · rename_i parentOU hpar
          have hshort : parentOU.length < n := by
            have := getParentObject_length hpar
            omega
          split
          · split
            · split
              · exact ⟨_, rfl⟩
              · exact ⟨_, rfl⟩
              · split
                · rename_i w₂ _ _
                  obtain ⟨r, hr⟩ := ih parentOU true w₂ hshort
                  rw [hr]
                  split
                  · rename_i hnone
                    simp at hnone
                  · exact ⟨_, rfl⟩
                  · exact ⟨_, rfl⟩
                · exact ⟨_, rfl⟩
            · exact ⟨_, rfl⟩
          · exact ⟨_, rfl⟩

theorem createOU_total {σ : Type} (rx : MatchString) (D : Directory σ) (base ou : String)
    (cp : Bool) (w : World σ) : ∃ r, createOU rx D base ou cp w = some r :=
  createOUFuel_total rx D base _ ou cp w (Nat.lt_succ_self _)

theorem createOUFuel_success {σ : Type} (rx : MatchString) (D : Directory σ) (base ou : String)
    (cp : Bool) (w w' : World σ) (fuel : Nat)
    (h : createOUFuel rx D base fuel ou cp w = some (.ret none, w')) :
    withinSearchBase rx base ou = true ∧ ∃ w₀, addOU D ou w₀ = (.ret none, w') := by
  cases fuel with
  | zero => simp [createOUFuel] at h
  | succ n =>
    rw [createOUFuel] at h
    split at h
    · simp at h
    · rename_i hw
      refine ⟨by simpa using hw, ?_⟩
      split at h
      · simp at h
      · simp at h
      · split at h
        · simp at h
        · simp at h
        · split at h
          · split at h
            · split at h
              · simp at h
              · exact ⟨_, by simpa using h⟩
              · split at h
                · split at h
                  · simp at h
                  · exact ⟨_, by simpa using h⟩
                  · rename_i hne _
                    simp only [Option.some.injEq, Prod.mk.injEq] at h
                    exact absurd h.1 hne
                · simp at h
            · exact ⟨_, by simpa using h⟩
          · exact ⟨_, by simpa using h⟩

/-! ## The paths of one call -/

theorem createOU_of_outside {σ : Type} (rx : MatchString) (D : Directory σ) (base ou : String)
    (cp : Bool) (w : World σ) (h : withinSearchBase rx base ou = false) :
    createOU rx D base ou cp w = some (.ret (some (outsideSearchBase ou base)), w) :=
  createOUFuel_outside rx D base ou cp w _ h

theorem createOU_of_probe_error {σ : Type} (rx : MatchString) (D : Directory σ)
    (base ou : String) (cp : Bool) (w w₁ : World σ) (b : Bool) (err : String)
    (hw : withinSearchBase rx base ou = true)
    (hex : ouExists D base ou w = ((b, some err), w₁)) :
    createOU rx D base ou cp w = some (.ret (some err), w₁) := by
  rw [createOU, createOUFuel]
  simp [hw, hex]

theorem createOU_of_exists {σ : Type} (rx : MatchString) (D : Directory σ)
    (base ou : String) (cp : Bool) (w w₁ : World σ)
    (hw : withinSearchBase rx base ou = true)
    (hex : ouExists D base ou w = ((true, none), w₁)) :
    createOU rx D base ou cp w = some (.ret (some (alreadyExists ou)), w₁) := by
  rw [createOU, createOUFuel]
  simp [hw, hex]

theorem createOU_of_empty {σ : Type} (rx : MatchString) (D : Directory σ)
    (base : String) (cp : Bool) (w w₁ : World σ)
    (hw : withinSearchBase rx base "" = true)
    (hex : ouExists D base "" w = ((false, none), w₁)) :
    createOU rx D base "" cp w
      = some (.fatal "unable to get parent object of empty string", w₁) := by
  have hp : getParentObject "" = .fatal "unable to get parent object of empty string" := by
    decide
  rw [createOU, createOUFuel]
  simp [hw, hex, hp]

theorem ouKeyRegexp_false_of_not_OUShaped {dn : String} (h : ¬ OUShaped dn) :
    ouKeyRegexp.matchString dn.data = false := by
  cases hm : ouKeyRegexp.matchString dn.data with
  | false => rfl
  | true => exact absurd ((ouKeyRegexp_matchString dn.data).1 hm) h

theorem createOU_of_direct {σ : Type} (rx : MatchString) (D : Directory σ)
    (base ou parent : String) (cp : Bool) (w w₁ : World σ)
    (hw : withinSearchBase rx base ou = true)
    (hex : ouExists D base ou w = ((false, none), w₁))
    (hpar : getParentObject ou = .ret parent) (h : parent = base ∨ ¬ OUShaped ou) :
    createOU rx D base ou cp w = some (addOU D ou w₁) := by
  rw [createOU, createOUFuel]
  rcases h with h | h
  · simp [hw, hex, hpar, h]
  · simp [hw, hex, hpar, ouKeyRegexp_false_of_not_OUShaped h]

theorem createOU_of_parent_probe_error {σ : Type} (rx : MatchString) (D : Directory σ)
    (base ou parent : String) (cp : Bool) (w w₁ w₂ : World σ) (b : Bool) (err : String)
    (hw : withinSearchBase rx base ou = true)
    (hex : ouExists D base ou w = ((false, none), w₁))
    (hpar : getParentObject ou = .ret parent) (hne : parent ≠ base) (hshape : OUShaped ou)
    (hprobe : ouExists D base parent w₁ = ((b, some err), w₂)) :
    createOU rx D base ou cp w = some (.fatal err, w₂) := by
  rw [createOU, createOUFuel]
  simp [hw, hex, hpar, hne, (ouKeyRegexp_matchString ou.data).2 hshape, hprobe]

theorem createOU_of_parent_exists {σ : Type} (rx : MatchString) (D : Directory σ)
    (base ou parent : String) (cp : Bool) (w w₁ w₂ : World σ)
    (hw : withinSearchBase rx base ou = true)
    (hex : ouExists D base ou w = ((false, none), w₁))
    (hpar : getParentObject ou = .ret parent) (hne : parent ≠ base) (hshape : OUShaped ou)
    (hprobe : ouExists D base parent w₁ = ((true, none), w₂)) :
    createOU rx D base ou cp w = some (addOU D ou w₂) := by
  rw [createOU, createOUFuel]
  simp [hw, hex, hpar, hne, (ouKeyRegexp_matchString ou.data).2 hshape, hprobe]

theorem createOU_of_parent_missing {σ : Type} (rx : MatchString) (D : Directory σ)
    (base ou parent : String) (w w₁ w₂ : World σ)
    (hw : withinSearchBase rx base ou = true)
    (hex : ouExists D base ou w = ((false, none), w₁))
    (hpar : getParentObject ou = .ret parent) (hne : parent ≠ base) (hshape : OUShaped ou)
    (hprobe : ouExists D base parent w₁ = ((false, none), w₂)) :
    createOU rx D base ou false w = some (.ret (some (parentMissing ou)), w₂) := by
  rw [createOU, createOUFuel]
  simp [hw, hex, hpar, hne, (ouKeyRegexp_matchString ou.data).2 hshape, hprobe]

theorem createOU_of_recursion {σ : Type} (rx : MatchString) (D : Directory σ)
    (base ou parent : String) (w w₁ w₂ w₃ : World σ) (r : Outcome (Option String))
    (hw : withinSearchBase rx base ou = true)
    (hex : ouExists D base ou w = ((false, none), w₁))
    (hpar : getParentObject ou = .ret parent) (hne : parent ≠ base) (hshape : OUShaped ou)
    (hprobe : ouExists D base parent w₁ = ((false, none), w₂))
    (hrec : createOU rx D base parent true w₂ = some (r, w₃)) :
    createOU rx D base ou true w
      = if r = .ret none then some (addOU D ou w₃) else some (r, w₃) := by
  have hfuel : createOUFuel rx D base ou.length parent true w₂ = some (r, w₃) := by
    rw [createOUFuel_eq_createOU rx D base _ parent true w₂ (getParentObject_length hpar)]
    exact hrec
  have hkey := (ouKeyRegexp_matchString ou.data).2 hshape
  rw [createOU, createOUFuel]
  by_cases hr : r = .ret none
  · subst hr
    simp [hw, hex, hpar, hne, hkey, hprobe, hfuel]
  · simp only [hw, hex, hpar, hkey, hprobe, hfuel, hr, if_false, if_true, Bool.not_true,
      Bool.false_eq_true, ne_eq, hne, not_false_eq_true]

/-- When a call ends the process, it does so in `getParentObject` on the empty DN, at the
probe of the parent of its DN, or in the recursive call on that parent. -/
theorem createOU_fatal_cases {σ : Type} (rx : MatchString) (D : Directory σ) (base ou : String)
    (cp : Bool) (w w' : World σ) (msg : String)
    (h : createOU rx D base ou cp w = some (.fatal msg, w')) :
    ∃ w₁, withinSearchBase rx base ou = true ∧ ouExists D base ou w = ((false, none), w₁) ∧
      ((ou = "" ∧ msg = "unable to get parent object of empty string" ∧ w' = w₁) ∨
        ∃ parent, getParentObject ou = .ret parent ∧ parent ≠ base ∧ OUShaped ou ∧
          ((∃ b, ouExists D base parent w₁ = ((b, some msg), w')) ∨
            ∃ w₂, ouExists D base parent w₁ = ((false, none), w₂) ∧ cp = true ∧
              createOU rx D base parent true w₂ = some (.fatal msg, w'))) := by
  have hadd : ∀ w₀, some (addOU D ou w₀) ≠ some (Outcome.fatal msg, w') := by
    intro w₀ he
    simp only [Option.some.injEq] at he
    exact addOU_not_fatal D ou w₀ msg (congrArg Prod.fst he)
  cases hw : withinSearchBase rx base ou with
  | false =>
    rw [createOU_of_outside rx D base ou cp w hw] at h
    simp at h
  | true =>
    rcases hex : ouExists D base ou w with ⟨⟨b, e⟩, w₁⟩
    cases e with
    | some err =>
      rw [createOU_of_probe_error rx D base ou cp w w₁ b err hw hex] at h
      simp at h
    | none =>
      cases b with
      | true =>
        rw [createOU_of_exists rx D base ou cp w w₁ hw hex] at h
        simp at h
      | false =>
        refine ⟨w₁, rfl, rfl, ?_⟩
        rcases getParentObject_cases ou with ⟨he, _⟩ | ⟨_, parent, hpar⟩
        · subst he
          rw [createOU_of_empty rx D base cp w w₁ hw hex] at h
          simp only [Option.some.injEq, Prod.mk.injEq, Outcome.fatal.injEq] at h
          exact Or.inl ⟨rfl, h.1.symm, h.2.symm⟩
        · right
          by_cases hd : parent = base ∨ ¬ OUShaped ou
          · rw [createOU_of_direct rx D base ou parent cp w w₁ hw hex hpar hd] at h
            exact absurd h (hadd w₁)
          · have hne : parent ≠ base := fun hp => hd (Or.inl hp)
            have hshape : OUShaped ou := by
              by_contra hn
              exact hd (Or.inr hn)
            refine ⟨parent, hpar, hne, hshape, ?_⟩
            rcases hp : ouExists D base parent w₁ with ⟨⟨b', e'⟩, w₂⟩
            cases e' with
            | some err =>
              rw [createOU_of_parent_probe_error rx D base ou parent cp w w₁ w₂ b' err hw hex
                hpar hne hshape hp] at h
              simp only [Option.some.injEq, Prod.mk.injEq, Outcome.fatal.injEq] at h
              left
              exact ⟨b', by rw [h.1, h.2]⟩
            | none =>
              cases b' with
              | true =>
                rw [createOU_of_parent_exists rx D base ou parent cp w w₁ w₂ hw hex hpar hne
                  hshape hp] at h
                exact absurd h (hadd w₂)
              | false =>
                cases cp with
                | false =>
                  rw [createOU_of_parent_missing rx D base ou parent w w₁ w₂ hw hex hpar hne
                    hshape hp] at h
                  simp at h
                | true =>
                  obtain ⟨⟨r, w₃⟩, hrec⟩ := createOU_total rx D base parent true w₂
                  rw [createOU_of_recursion rx D base ou parent w w₁ w₂ w₃ r hw hex hpar hne
                    hshape hp hrec] at h
                  by_cases hr : r = .ret none
                  · rw [if_pos hr] at h
                    exact absurd h (hadd w₃)
                  · rw [if_neg hr] at h
                    simp only [Option.some.injEq, Prod.mk.injEq] at h
                    right
                    exact ⟨w₂, rfl, rfl, by rw [hrec, h.1, h.2]⟩

/-! ## DNs made of OU components -/

theorem ouDN_data (v p : String) :
    (ouDN v p).data = 'O' :: 'U' :: '=' :: (v.data ++ ',' :: p.data) := by
  have h₁ : ("OU=" : String).data = ['O', 'U', '='] := rfl
  have h₂ : ("," : String).data = [','] := rfl
  simp [ouDN, String.data_append, h₁, h₂]

theorem ouDN_length (v p : String) : p.length < (ouDN v p).length := by
  show p.data.length < (ouDN v p).data.length
  rw [ouDN_data]
  simp
  omega

theorem OUShaped_ouDN (v p : String) : OUShaped (ouDN v p) :=
  ⟨'O', 'U', _, ouDN_data v p, Or.inr rfl, Or.inr rfl⟩

theorem ouKeyRegexp_of_OUShaped {dn : String} (h : OUShaped dn) :
    ouKeyRegexp.matchString dn.data = true :=
  (ouKeyRegexp_matchString dn.data).2 h

theorem getParentObject_ouDN (v p : String) (hv : PlainValue v)
    (hhead : p.data.head? ≠ some ' ') (hnl : '\n' ∉ p.data) :
    getParentObject (ouDN v p) = .ret p := by
  have h₁ : ("OU=" : String).data = ['O', 'U', '='] := rfl
  have hfirst : "OU=" ++ v ≠ "" := by
    intro h
    have := congrArg String.data h
    simp [String.data_append, h₁] at this
  have hcomma : ',' ∉ ("OU=" ++ v).data := by
    simp [String.data_append, h₁, hv.2.1]
  have := getParentObject_eq ("OU=" ++ v) p 0 hfirst hcomma
    (fun c cs hc hsp => hhead (by simp [hc, hsp])) hnl
  have he : "OU=" ++ v ++ "," ++ String.mk (spaces 0) ++ p = ouDN v p := by
    apply String.ext
    simp [ouDN, String.data_append, spaces]
  rwa [he] at this

theorem findStringSubmatch_ouDN (v p : String) (hv : PlainValue v) (hnl : '\n' ∉ p.data) :
    ∃ whole, ouRegexp.findStringSubmatch (ouDN v p).data = some [whole, v] := by
  rw [ouDN_data]
  have hne : v.data ≠ [] := fun h => hv.1 (String.ext h)
  obtain ⟨whole, h⟩ := findStringSubmatch_ouRegexp 'O' 'U' v.data p.data (Or.inr rfl) (Or.inr rfl)
    hne (fun c hc hcc => hv.2.1 (hcc ▸ hc))
    (fun c hc => by
      have : c ≠ '\n' := fun hcc => hnl (hcc ▸ hc)
      simpa [isDot] using this)
  exact ⟨whole, h⟩

theorem dnOver_suffix (base : String) (vs : List String) (hvs : vs ≠ []) :
    ∃ pre, (dnOver base vs).data = pre ++ ',' :: (spaces 0 ++ base.data) := by
  induction vs with
  | nil => exact absurd rfl hvs
  | cons v vs ih =>
    cases vs with
    | nil =>
      refine ⟨'O' :: 'U' :: '=' :: v.data, ?_⟩
      simp [dnOver, ouDN_data, spaces]
    | cons v' vs' =>
      obtain ⟨pre, hpre⟩ := ih (by simp)
      refine ⟨'O' :: 'U' :: '=' :: (v.data ++ ',' :: pre), ?_⟩
      rw [dnOver, ouDN_data, hpre]
      simp

theorem dnOver_no_newline (base : String) (hnl : '\n' ∉ base.data) (vs : List String)
    (hvs : ∀ v ∈ vs, PlainValue v) : '\n' ∉ (dnOver base vs).data := by
  induction vs with
  | nil => simpa [dnOver] using hnl
  | cons v vs ih =>
    have hv := hvs v (by simp)
    have := ih (fun u hu => hvs u (by simp [hu]))
    rw [dnOver, ouDN_data]
    simp [hv.2.2, this]

theorem dnOver_head (base : String) (hhead : base.data.head? ≠ some ' ') (vs : List String) :
    (dnOver base vs).data.head? ≠ some ' ' := by
  cases vs with
  | nil => simpa [dnOver] using hhead
  | cons v vs =>
    rw [dnOver, ouDN_data]
    simp

theorem dnOver_ne_base (base : String) (v : String) (vs : List String) :
    dnOver base (v :: vs) ≠ base := by
  have : ∀ us : List String, base.length ≤ (dnOver base us).length := by
    intro us
    induction us with
    | nil => simp [dnOver]
    | cons u us ih =>
      have := ouDN_length u (dnOver base us)
      simp only [dnOver]
      omega
  intro h
  have h₁ := ouDN_length v (dnOver base vs)
  have h₂ := this vs
  simp only [dnOver] at h
  rw [h] at h₁
  omega

theorem withinSearchBase_dnOver (rx : MatchString) (base : String)
    (hb : (basePattern base).isSome = true) (vs : List String) (hvs : vs ≠ []) :
    withinSearchBase rx base (dnOver base vs) = true := by
  obtain ⟨pre, hpre⟩ := dnOver_suffix base vs hvs
  exact withinSearchBase_of_suffix rx base _ hb pre 0 hpre

theorem addedDNs_append (a b : List Op) : addedDNs (a ++ b) = addedDNs a ++ addedDNs b := by
  induction a with
  | nil => rfl
  | cons x a ih =>
    cases x <;> simp [addedDNs, ih]

theorem deletedDNs_append (a b : List Op) :
    deletedDNs (a ++ b) = deletedDNs a ++ deletedDNs b := by
  induction a with
  | nil => rfl
  | cons x a ih =>
    cases x <;> simp [deletedDNs, ih]

theorem mem_ancestorChain_self (base v : String) (vs : List String) :
    dnOver base (v :: vs) ∈ ancestorChain base (v :: vs) := by
  simp [ancestorChain]

/-! ## Creating a chain of ancestors -/

theorem addOU_ouDN {σ : Type} (D : Directory σ) (hadd : ∀ s d attrs, (D.add s d attrs).1 = none)
    (v p : String) (hv : PlainValue v) (hnl : '\n' ∉ p.data) (w : World σ) :
    ∃ w', addOU D (ouDN v p) w = (.ret none, w') ∧
      w'.log = w.log ++ [.add (ouDN v p) [("objectClass", ["organizationalUnit"]), ("ou", [v])]] := by
  obtain ⟨whole, h⟩ := findStringSubmatch_ouDN v p hv hnl
  rw [addOU_of_match D (ouDN v p) w h, hadd]
  exact ⟨_, rfl, rfl⟩

theorem createOU_chain {σ : Type} (rx : MatchString) (D : Directory σ) (base : String)
    (hb : PlainBase base) (I : σ → Prop) (C : List String)
    (hsearch : ∀ s, I s → ∀ d ∈ C,
      (D.search s base (ouFilter d) ["distinguishedName"]).1 = .ok [] ∧
        I (D.search s base (ouFilter d) ["distinguishedName"]).2)
    (hadd : ∀ s d attrs, (D.add s d attrs).1 = none) :
    ∀ (vs : List String), vs ≠ [] → (∀ v ∈ vs, PlainValue v) →
      (∀ d ∈ ancestorChain base vs, d ∈ C) →
      ∀ (w : World σ), I w.dir →
        ∃ w' ops, createOU rx D base (dnOver base vs) true w = some (.ret none, w') ∧
          w'.log = w.log ++ ops ∧ addedDNs ops = ancestorChain base vs ∧
          deletedDNs ops = [] := by
  intro vs
  induction vs with
  | nil => intro h; exact absurd rfl h
  | cons v vs ih =>
    intro _ hvs hC w hI
    have hv : PlainValue v := hvs v (by simp)
    have hvs' : ∀ u ∈ vs, PlainValue u := fun u hu => hvs u (by simp [hu])
    have hnl : '\n' ∉ (dnOver base vs).data := dnOver_no_newline base hb.2.2 vs hvs'
    have hhead := dnOver_head base hb.2.1 vs
    have hpar : getParentObject (dnOver base (v :: vs)) = .ret (dnOver base vs) :=
      getParentObject_ouDN v _ hv hhead hnl
    have hwithin := withinSearchBase_dnOver rx base hb.1 (v :: vs) (by simp)
    have hdC : dnOver base (v :: vs) ∈ C := hC _ (mem_ancestorChain_self base v vs)
    obtain ⟨hs₁, hI₁⟩ := hsearch w.dir hI _ hdC
    have hex := ouExists_of_none D base (dnOver base (v :: vs)) w hs₁
    cases vs with
    | nil =>
      obtain ⟨w', hw', hlog⟩ := addOU_ouDN D hadd v base hv hb.2.2
        ⟨(D.search w.dir base (ouFilter (dnOver base [v])) ["distinguishedName"]).2,
          w.log ++ [existsSearch base (dnOver base [v])]⟩
      refine ⟨w', [existsSearch base (dnOver base [v]),
        .add (ouDN v base) [("objectClass", ["organizationalUnit"]), ("ou", [v])]], ?_, ?_, ?_, ?_⟩
      · rw [createOU_of_direct rx D base _ _ true w _ hwithin hex hpar (Or.inl rfl)]
        exact congrArg some hw'
      · rw [hlog]
        simp
      · simp [addedDNs, existsSearch, ancestorChain, dnOver]
      · simp [deletedDNs, existsSearch]
    | cons v' vs' =>
      have hne : dnOver base (v' :: vs') ≠ base := dnOver_ne_base base v' vs'
      have hshape : OUShaped (dnOver base (v :: v' :: vs')) := OUShaped_ouDN v _
      have hpC : dnOver base (v' :: vs') ∈ C := hC _ (by simp [ancestorChain])
      obtain ⟨hs₂, hI₂⟩ := hsearch _ hI₁ _ hpC
      have hex₂ := ouExists_of_none D base (dnOver base (v' :: vs'))
        ⟨(D.search w.dir base (ouFilter (dnOver base (v :: v' :: vs'))) ["distinguishedName"]).2,
          w.log ++ [existsSearch base (dnOver base (v :: v' :: vs'))]⟩ hs₂
      obtain ⟨w₃, ops, hrec, hlog₃, hadds, hdels⟩ := ih (by simp) hvs'
        (fun d hd => hC d (by
          simp only [ancestorChain] at hd ⊢
          exact List.mem_append_left _ hd))
        ⟨(D.search (D.search w.dir base (ouFilter (dnOver base (v :: v' :: vs')))
            ["distinguishedName"]).2 base (ouFilter (dnOver base (v' :: vs')))
            ["distinguishedName"]).2,
          w.log ++ [existsSearch base (dnOver base (v :: v' :: vs'))] ++
            [existsSearch base (dnOver base (v' :: vs'))]⟩ hI₂
      obtain ⟨w', hw', hlog⟩ := addOU_ouDN D hadd v (dnOver base (v' :: vs')) hv hnl w₃
      refine ⟨w', [existsSearch base (dnOver base (v :: v' :: vs')),
        existsSearch base (dnOver base (v' :: vs'))] ++ ops ++
        [.add (ouDN v (dnOver base (v' :: vs')))
          [("objectClass", ["organizationalUnit"]), ("ou", [v])]], ?_, ?_, ?_, ?_⟩
      · rw [createOU_of_recursion rx D base _ _ w _ _ w₃ _ hwithin hex hpar hne hshape hex₂ hrec]
        simp only [if_true]
        exact congrArg some hw'
      · rw [hlog, hlog₃]
        simp
      · rw [addedDNs_append, addedDNs_append, hadds]
        simp [addedDNs, existsSearch, ancestorChain, dnOver]
      · rw [deletedDNs_append, deletedDNs_append, hdels]
        simp [deletedDNs, existsSearch]

/-! ## Text and lists of characters -/

theorem eq_suffix_iff (d pre base : String) (n : Nat) :
    d = pre ++ "," ++ String.mk (spaces n) ++ base ↔
      d.data = pre.data ++ ',' :: (spaces n ++ base.data) := by
  have h₂ : ("," : String).data = [','] := rfl
  rw [String.ext_iff]
  simp [String.data_append, h₂]

theorem exists_suffix_iff (d base : String) :
    (∃ (pre : String) (n : Nat), d = pre ++ "," ++ String.mk (spaces n) ++ base) ↔
      ∃ (pre : List Char) (n : Nat), d.data = pre ++ ',' :: (spaces n ++ base.data) := by
  constructor
  · rintro ⟨pre, n, h⟩
    exact ⟨pre.data, n, (eq_suffix_iff d pre base n).1 h⟩
  · rintro ⟨pre, n, h⟩
    exact ⟨String.mk pre, n, (eq_suffix_iff d (String.mk pre) base n).2 h⟩

theorem not_suffix_self (base : String) :
    ¬ ∃ (pre : List Char) (n : Nat), base.data = pre ++ ',' :: (spaces n ++ base.data) := by
  rintro ⟨pre, n, h⟩
  have := congrArg List.length h
  simp at this
  omega

theorem isSome_of_isLiteral {base : String} (hb : isLiteral base = true) :
    (basePattern base).isSome = true := by
  obtain ⟨r, hr, _⟩ := baseTail_literal ((isLiteral_iff base).1 hb)
  simp [basePattern, hr]

theorem withinSearchBase_iff_of_literal (rx : MatchString) (base d : String)
    (hb : isLiteral base = true) :
    withinSearchBase rx base d = true ↔
      ∃ (pre : String) (n : Nat), d = pre ++ "," ++ String.mk (spaces n) ++ base := by
  rw [exists_suffix_iff]
  exact withinSearchBase_literal rx base d hb

theorem createOU_outside_of_literal {σ : Type} (rx : MatchString) (D : Directory σ)
    (base ou : String) (cp : Bool) (w : World σ) (hb : isLiteral base = true)
    (hout : ¬ ∃ (pre : String) (n : Nat), ou = pre ++ "," ++ String.mk (spaces n) ++ base) :
    createOU rx D base ou cp w = some (.ret (some (outsideSearchBase ou base)), w) := by
  apply createOU_of_outside
  cases h : withinSearchBase rx base ou with
  | false => rfl
  | true => exact absurd ((withinSearchBase_iff_of_literal rx base ou hb).1 h) hout

theorem length_le_of_mem_ancestorChain (base : String) (vs : List String) :
    ∀ d ∈ ancestorChain base vs, d.length ≤ (dnOver base vs).length := by
  induction vs with
  | nil => simp [ancestorChain]
  | cons v vs ih =>
    intro d hd
    simp only [ancestorChain, List.mem_append, List.mem_singleton] at hd
    rcases hd with hd | rfl
    · have := ih d hd
      have := ouDN_length v (dnOver base vs)
      simp only [dnOver]
      omega
    · exact le_refl _

theorem ancestorChain_nodup (base : String) (vs : List String) :
    (ancestorChain base vs).Nodup := by
  induction vs with
  | nil => simp [ancestorChain]
  | cons v vs ih =>
    simp only [ancestorChain]
    refine List.Nodup.append ih (by simp) ?_
    intro d hd hd'
    have h₁ := length_le_of_mem_ancestorChain base vs d hd
    have h₂ := ouDN_length v (dnOver base vs)
    simp only [List.mem_singleton] at hd'
    subst hd'
    simp only [dnOver] at h₁
    omega

/-! ## The claims -/

/-- C1, counterexample: the containment check of line 116 rejects the search base itself,
`DC=com` against `DC=com`, which the claim says it accepts (`d == b`); the pattern of this
search base is within the fragment, so this is so whatever the library. -/
theorem containment_check_rejects_the_base :
    (basePattern "DC=com").isSome = true ∧
      ∀ rx : MatchString, withinSearchBase rx "DC=com" "DC=com" = false :=
  ⟨by decide, fun rx =>
    (withinSearchBase_congr rx matchNothing (by decide) "DC=com").trans (by decide)⟩

/-- C1, amended: for a search base `b` without regexp metacharacters, the containment check
accepts `d` if and only if `d` is some text (empty or not) followed by a comma, any number of
spaces and `b`; so it accepts nothing else, and in particular never `b` itself. -/
theorem containment_check_of_literal_base (rx : MatchString) (base d : String)
    (hb : isLiteral base = true) :
    (withinSearchBase rx base d = true ↔
      ∃ (pre : String) (n : Nat), d = pre ++ "," ++ String.mk (spaces n) ++ base) ∧
    (withinSearchBase rx base d = false ↔
      ¬ ∃ (pre : String) (n : Nat), d = pre ++ "," ++ String.mk (spaces n) ++ base) ∧
    withinSearchBase rx base base = false := by
  have h := withinSearchBase_iff_of_literal rx base d hb
  refine ⟨h, ?_, ?_⟩
  · rw [← h]
    simp
  · cases hs : withinSearchBase rx base base with
    | false => rfl
    | true =>
      exact absurd ((withinSearchBase_literal rx base base hb).1 hs) (not_suffix_self base)

/-- C1, the amended claim at the search base `DC=com`: `OU=X,DC=other` is rejected. -/
theorem containment_check_of_literal_base_witness :
    isLiteral "DC=com" = true ∧ withinSearchBase matchNothing "DC=com" "OU=X,DC=other" = false ∧
      withinSearchBase matchNothing "DC=com" "DC=com" = false :=
  ⟨by decide,
   ((containment_check_of_literal_base matchNothing "DC=com" "OU=X,DC=other" (by decide)).2.1).2
     (by
      rw [exists_suffix_iff]
      rintro ⟨pre, n, h⟩
      have h' := congrArg List.getLast? h
      rw [List.getLast?_append_of_ne_nil _ (by simp)] at h'
      rw [show ',' :: (spaces n ++ "DC=com".data) = (',' :: spaces n) ++ "DC=com".data by simp,
        List.getLast?_append_of_ne_nil _ (by decide)] at h'
      revert h'
      decide),
   (containment_check_of_literal_base matchNothing "DC=com" "OU=X,DC=other" (by decide)).2.2⟩

/-- C2, counterexample: after the first comma `getParentObject` trims every leading space,
not a single one (`OU=A,  DC=com` gives `DC=com`), and a DN with an empty first component
gives the empty parent instead of the remaining components. -/
theorem getParentObject_trims_all_spaces :
    getParentObject "OU=A,  DC=com" = .ret "DC=com" ∧
      getParentObject "OU=A,  DC=com" ≠ .ret " DC=com" ∧
      getParentObject ",DC=com" = .ret "" := by
  decide

/-- C2, amended: for a DN whose first component is not empty, `getParentObject` drops the
first component, its comma and all the spaces that follow the comma, and returns the
remainder unchanged, provided the remainder has no newline. -/
theorem getParentObject_drops_first_component (first rest : String) (n : Nat)
    (hfirst : first ≠ "") (hcomma : ',' ∉ first.data)
    (hrest : rest.data.head? ≠ some ' ') (hnl : '\n' ∉ rest.data) :
    getParentObject (first ++ "," ++ String.mk (spaces n) ++ rest) = .ret rest :=
  getParentObject_eq first rest n hfirst hcomma
    (fun c cs hc hsp => hrest (by simp [hc, hsp])) hnl

/-- C2, the amended claim at `OU=Child,  OU=Missing, DC=corp,DC=com`. -/
theorem getParentObject_drops_first_component_witness :
    getParentObject ("OU=Child" ++ "," ++ String.mk (spaces 2) ++ "OU=Missing, DC=corp,DC=com")
      = .ret "OU=Missing, DC=corp,DC=com" :=
  getParentObject_drops_first_component "OU=Child" "OU=Missing, DC=corp,DC=com" 2
    (by decide) (by decide) (by decide) (by decide)

/-- C9: `ouExists` is decided by the number of entries of the search result: none gives
`(false, nil)`, one gives `(true, nil)`, more than one gives `false` with the
too-many-results error, and an error of the search is returned unchanged with `false`;
the call issues the one search and nothing else. -/
theorem ouExists_by_multiplicity {σ : Type} (D : Directory σ) (base ou : String) (w : World σ) :
    (∀ err, (D.search w.dir base (ouFilter ou) ["distinguishedName"]).1 = .error err →
      (ouExists D base ou w).1 = (false, some err)) ∧
    (∀ entries, (D.search w.dir base (ouFilter ou) ["distinguishedName"]).1 = .ok entries →
      (entries.length = 0 → (ouExists D base ou w).1 = (false, none)) ∧
      (entries.length = 1 → (ouExists D base ou w).1 = (true, none)) ∧
      (1 < entries.length → (ouExists D base ou w).1 = (false, some (tooManyResults ou)))) ∧
    (ouExists D base ou w).2 =
      ⟨(D.search w.dir base (ouFilter ou) ["distinguishedName"]).2,
       w.log ++ [existsSearch base ou]⟩ := by
  refine ⟨fun err h => ouExists_of_error D base ou w h, fun entries h => ?_,
    ouExists_world D base ou w⟩
  rw [ouExists_of_ok D base ou w h]
  refine ⟨fun h0 => ?_, fun h1 => ?_, fun h2 => ?_⟩
  · simp [h0]
  · simp [h1]
  · have : entries.length ≠ 1 := by omega
    simp [this, h2]

/-- C9 on the scripted directory: two entries, one entry, no entry, a failed search. -/
theorem ouExists_by_multiplicity_witness :
    (ouExists scriptDir "DC=corp,DC=com" "OU=X,DC=corp,DC=com"
        ⟨[.ok ["OU=X,DC=corp,DC=com", "OU=X,DC=corp,DC=com"]], []⟩).1
      = (false, some (tooManyResults "OU=X,DC=corp,DC=com")) ∧
    (ouExists scriptDir "DC=corp,DC=com" "OU=X,DC=corp,DC=com"
        ⟨[.ok ["OU=X,DC=corp,DC=com"]], []⟩).1 = (true, none) ∧
    (ouExists scriptDir "DC=corp,DC=com" "OU=X,DC=corp,DC=com" ⟨[], []⟩).1 = (false, none) ∧
    (ouExists scriptDir "DC=corp,DC=com" "OU=X,DC=corp,DC=com"
        ⟨[.error "LDAP Result Code 200 \"Network Error\""], []⟩).1
      = (false, some "LDAP Result Code 200 \"Network Error\"") :=
  ⟨((ouExists_by_multiplicity scriptDir "DC=corp,DC=com" "OU=X,DC=corp,DC=com"
      ⟨[.ok ["OU=X,DC=corp,DC=com", "OU=X,DC=corp,DC=com"]], []⟩).2.1
      ["OU=X,DC=corp,DC=com", "OU=X,DC=corp,DC=com"] rfl).2.2 (by decide),
   ((ouExists_by_multiplicity scriptDir "DC=corp,DC=com" "OU=X,DC=corp,DC=com"
      ⟨[.ok ["OU=X,DC=corp,DC=com"]], []⟩).2.1 ["OU=X,DC=corp,DC=com"] rfl).2.1 (by decide),
   ((ouExists_by_multiplicity scriptDir "DC=corp,DC=com" "OU=X,DC=corp,DC=com"
      ⟨[], []⟩).2.1 [] rfl).1 (by decide),
   (ouExists_by_multiplicity scriptDir "DC=corp,DC=com" "OU=X,DC=corp,DC=com"
      ⟨[.error "LDAP Result Code 200 \"Network Error\""], []⟩).1
      "LDAP Result Code 200 \"Network Error\"" rfl⟩

/-- C7: `deleteOU` is idempotent.  A call whose existence search finds no entry returns no
error and issues nothing but that search.  Over a directory in which a search changes
nothing and a successful delete of a DN leaves no entry for it, when a first call succeeds
the call that follows succeeds too, issues only its search (no delete) and leaves the
directory as it is. -/
theorem deleteOU_idempotent {σ : Type} (D : Directory σ) (base ou : String) (w : World σ)
    (hread : ∀ s b f a, (D.search s b f a).2 = s)
    (hdel : ∀ s dn, (D.del s dn).1 = none → ∀ b,
      (D.search (D.del s dn).2 b (ouFilter dn) ["distinguishedName"]).1 = .ok []) :
    ((D.search w.dir base (ouFilter ou) ["distinguishedName"]).1 = .ok [] →
      deleteOU D base ou w = (none, ⟨w.dir, w.log ++ [existsSearch base ou]⟩)) ∧
    ((deleteOU D base ou w).1 = none →
      deleteOU D base ou (deleteOU D base ou w).2
        = (none, ⟨(deleteOU D base ou w).2.dir,
            (deleteOU D base ou w).2.log ++ [existsSearch base ou]⟩)) := by
  have key : ∀ w₀ : World σ, (D.search w₀.dir base (ouFilter ou) ["distinguishedName"]).1 = .ok [] →
      deleteOU D base ou w₀ = (none, ⟨w₀.dir, w₀.log ++ [existsSearch base ou]⟩) := by
    intro w₀ h
    rw [deleteOU_of_none D base ou w₀ h, hread]
  refine ⟨key w, fun h => key _ ?_⟩
  rcases deleteOU_success_cases D base ou w h with ⟨h0, hdir⟩ | ⟨hd, hdir⟩
  · rw [hdir, hread]
    exact h0
  · rw [hdir]
    exact hdel _ _ hd base

/-- C7 on the reference directory holding `OU=X,DC=corp,DC=com`: the first call deletes it,
the second finds nothing and deletes nothing. -/
theorem deleteOU_idempotent_witness :
    (deleteOU memDir "DC=corp,DC=com" "OU=X,DC=corp,DC=com" ⟨["OU=X,DC=corp,DC=com"], []⟩).1
      = none ∧
    deleteOU memDir "DC=corp,DC=com" "OU=X,DC=corp,DC=com"
        (deleteOU memDir "DC=corp,DC=com" "OU=X,DC=corp,DC=com"
          ⟨["OU=X,DC=corp,DC=com"], []⟩).2
      = (none, ⟨(deleteOU memDir "DC=corp,DC=com" "OU=X,DC=corp,DC=com"
            ⟨["OU=X,DC=corp,DC=com"], []⟩).2.dir,
          (deleteOU memDir "DC=corp,DC=com" "OU=X,DC=corp,DC=com"
            ⟨["OU=X,DC=corp,DC=com"], []⟩).2.log
            ++ [existsSearch "DC=corp,DC=com" "OU=X,DC=corp,DC=com"]⟩) :=
  ⟨by decide,
   (deleteOU_idempotent memDir "DC=corp,DC=com" "OU=X,DC=corp,DC=com"
      ⟨["OU=X,DC=corp,DC=com"], []⟩ (fun _ _ _ _ => rfl) memDir_del_removes).2 (by decide)⟩

/-- C3, the code at a search base with a dot: against the search base `OU=A.B,DC=com` the
DN `OU=X,OU=AxB,DC=com`, which does not end with the search base, passes the containment
check (the dot of the unescaped search base matches the `x`).  `createOU` then goes on: on
an empty directory it returns the missing-parent error, not the outside-search-base error,
and on a directory holding `OU=AxB,DC=com` it adds the entry. -/
theorem createOU_outside_base_with_dot :
    (¬ ∃ (pre : String) (n : Nat),
      "OU=X,OU=AxB,DC=com" = pre ++ "," ++ String.mk (spaces n) ++ "OU=A.B,DC=com") ∧
    "OU=X,OU=AxB,DC=com" ≠ "OU=A.B,DC=com" ∧
    ∀ rx : MatchString,
      withinSearchBase rx "OU=A.B,DC=com" "OU=X,OU=AxB,DC=com" = true ∧
      createOU rx memDir "OU=A.B,DC=com" "OU=X,OU=AxB,DC=com" false ⟨[], []⟩
        = some (.ret (some (parentMissing "OU=X,OU=AxB,DC=com")),
            ⟨[], [existsSearch "OU=A.B,DC=com" "OU=X,OU=AxB,DC=com",
                  existsSearch "OU=A.B,DC=com" "OU=AxB,DC=com"]⟩) ∧
      createOU rx memDir "OU=A.B,DC=com" "OU=X,OU=AxB,DC=com" false ⟨["OU=AxB,DC=com"], []⟩
        = some (.ret none, ⟨["OU=AxB,DC=com", "OU=X,OU=AxB,DC=com"],
            [existsSearch "OU=A.B,DC=com" "OU=X,OU=AxB,DC=com",
             existsSearch "OU=A.B,DC=com" "OU=AxB,DC=com",
             .add "OU=X,OU=AxB,DC=com"
               [("objectClass", ["organizationalUnit"]), ("ou", ["X"])]]⟩) := by
  refine ⟨?_, by decide, fun rx => ⟨?_, ?_, ?_⟩⟩
  · rw [exists_suffix_iff]
    rintro ⟨pre, n, h⟩
    have h' := congrArg (fun l => (l.reverse).get? 8) h
    simp only [List.reverse_append, List.reverse_cons] at h'
    revert h'
    simp
  · rw [withinSearchBase_congr rx matchNothing (by decide)]
    decide
  · rw [createOU_congr rx matchNothing memDir _ (by decide)]
    decide
  · rw [createOU_congr rx matchNothing memDir _ (by decide)]
    decide

/-- C4: `createOU` does not upsert.  Over a directory in which a successful add of a DN makes
the search for that DN return exactly one entry, for every search base (and whatever the
library answers on its pattern), when `createOU` succeeds the identical call that follows
returns the already-exists error for the DN and issues one search and no add. -/
theorem createOU_no_upsert {σ : Type} (rx : MatchString) (D : Directory σ) (base ou : String)
    (createParents : Bool) (w w' : World σ)
    (hmodel : ∀ s dn attrs, (D.add s dn attrs).1 = none → ∀ b, ∃ e,
      (D.search (D.add s dn attrs).2 b (ouFilter dn) ["distinguishedName"]).1 = .ok [e])
    (h : createOU rx D base ou createParents w = some (.ret none, w')) :
    createOU rx D base ou createParents w'
      = some (.ret (some (alreadyExists ou)),
          ⟨(D.search w'.dir base (ouFilter ou) ["distinguishedName"]).2,
           w'.log ++ [existsSearch base ou]⟩) := by
  obtain ⟨hw, w₀, ha⟩ := createOUFuel_success rx D base ou createParents w w' _ h
  obtain ⟨attrs, hnone, rfl⟩ := addOU_success D ou w₀ _ ha
  obtain ⟨e, he⟩ := hmodel w₀.dir ou attrs hnone base
  exact createOU_of_exists rx D base ou createParents _ _ hw
    (ouExists_of_one D base ou ⟨(D.add w₀.dir ou attrs).2, w₀.log ++ [.add ou attrs]⟩ he)

/-- C4 on the empty reference directory: the first call adds `OU=X,DC=corp,DC=com`, the
second is refused with the already-exists error and issues a search only. -/
theorem createOU_no_upsert_witness :
    createOU matchNothing memDir "DC=corp,DC=com" "OU=X,DC=corp,DC=com" false ⟨[], []⟩
      = some (.ret none, ⟨["OU=X,DC=corp,DC=com"],
          [existsSearch "DC=corp,DC=com" "OU=X,DC=corp,DC=com",
           .add "OU=X,DC=corp,DC=com"
             [("objectClass", ["organizationalUnit"]), ("ou", ["X"])]]⟩) ∧
    createOU matchNothing memDir "DC=corp,DC=com" "OU=X,DC=corp,DC=com" false
        ⟨["OU=X,DC=corp,DC=com"],
          [existsSearch "DC=corp,DC=com" "OU=X,DC=corp,DC=com",
           .add "OU=X,DC=corp,DC=com" [("objectClass", ["organizationalUnit"]), ("ou", ["X"])]]⟩
      = some (.ret (some (alreadyExists "OU=X,DC=corp,DC=com")),
          ⟨(memDir.search ["OU=X,DC=corp,DC=com"] "DC=corp,DC=com"
              (ouFilter "OU=X,DC=corp,DC=com") ["distinguishedName"]).2,
           [existsSearch "DC=corp,DC=com" "OU=X,DC=corp,DC=com",
            .add "OU=X,DC=corp,DC=com" [("objectClass", ["organizationalUnit"]), ("ou", ["X"])]]
             ++ [existsSearch "DC=corp,DC=com" "OU=X,DC=corp,DC=com"]⟩) :=
  ⟨by decide,
   createOU_no_upsert matchNothing memDir "DC=corp,DC=com" "OU=X,DC=corp,DC=com" false ⟨[], []⟩ _
    memDir_add_found (by decide)⟩

/-- C5, counterexample: the search base itself.  `OU=Root,DC=com` under the search base
`OU=Root,DC=com` is OU-shaped and within the base as the claim has it (it is the base), it
does not exist, and its parent `DC=com` differs from the search base and does not exist;
`createOU` returns the outside-search-base error, not the missing-parent error, and issues
no search. -/
theorem createOU_refuses_the_base_itself :
    OUShaped "OU=Root,DC=com" ∧
    getParentObject "OU=Root,DC=com" = .ret "DC=com" ∧ "DC=com" ≠ "OU=Root,DC=com" ∧
    (memDir.search [] "OU=Root,DC=com" (ouFilter "OU=Root,DC=com") ["distinguishedName"]).1
      = .ok [] ∧
    (memDir.search [] "OU=Root,DC=com" (ouFilter "DC=com") ["distinguishedName"]).1 = .ok [] ∧
    ∀ rx : MatchString,
      createOU rx memDir "OU=Root,DC=com" "OU=Root,DC=com" false ⟨[], []⟩
        = some (.ret (some (outsideSearchBase "OU=Root,DC=com" "OU=Root,DC=com")), ⟨[], []⟩) := by
  refine ⟨⟨'O', 'U', _, rfl, Or.inr rfl, Or.inr rfl⟩, by decide, by decide, rfl, rfl,
    fun rx => ?_⟩
  rw [createOU_congr rx matchNothing memDir _ (by decide)]
  decide

/-- C5, amended: for an OU-shaped DN that the containment check of line 116 accepts -- for a
search base without regexp metacharacters, a DN that ends with a comma, any number of spaces
and the search base -- that does not exist (its search finds no entry), whose parent differs
from the search base and does not exist either, `createOU` with `createParents = false`
returns the missing-parent error; it issues the two searches and no add or delete. -/
theorem createOU_missing_parent {σ : Type} (rx : MatchString) (D : Directory σ)
    (base ou parent : String) (w : World σ)
    (hwithin : withinSearchBase rx base ou = true ∨
      (isLiteral base = true ∧
        ∃ (pre : String) (n : Nat), ou = pre ++ "," ++ String.mk (spaces n) ++ base))
    (hshape : OUShaped ou)
    (habsent : (D.search w.dir base (ouFilter ou) ["distinguishedName"]).1 = .ok [])
    (hparent : getParentObject ou = .ret parent) (hne : parent ≠ base)
    (hpabsent : (D.search (D.search w.dir base (ouFilter ou) ["distinguishedName"]).2 base
      (ouFilter parent) ["distinguishedName"]).1 = .ok []) :
    createOU rx D base ou false w
      = some (.ret (some (parentMissing ou)),
          ⟨(D.search (D.search w.dir base (ouFilter ou) ["distinguishedName"]).2 base
              (ouFilter parent) ["distinguishedName"]).2,
           w.log ++ [existsSearch base ou, existsSearch base parent]⟩) := by
  have hw : withinSearchBase rx base ou = true := by
    rcases hwithin with h | ⟨hb, h⟩
    · exact h
    · exact (withinSearchBase_iff_of_literal rx base ou hb).2 h
  have hex := ouExists_of_none D base ou w habsent
  have hex₂ := ouExists_of_none D base parent
    ⟨(D.search w.dir base (ouFilter ou) ["distinguishedName"]).2,
      w.log ++ [existsSearch base ou]⟩ hpabsent
  rw [createOU_of_parent_missing rx D base ou parent w _ _ hw hex hparent hne hshape hex₂]
  simp

/-- C5, the amended claim on the empty reference directory:
`OU=Child,OU=Missing,DC=corp,DC=com` under the search base `DC=corp,DC=com`. -/
theorem createOU_missing_parent_witness :
    createOU matchNothing memDir "DC=corp,DC=com" "OU=Child,OU=Missing,DC=corp,DC=com" false
        ⟨[], []⟩
      = some (.ret (some (parentMissing "OU=Child,OU=Missing,DC=corp,DC=com")),
          ⟨[], [existsSearch "DC=corp,DC=com" "OU=Child,OU=Missing,DC=corp,DC=com",
                existsSearch "DC=corp,DC=com" "OU=Missing,DC=corp,DC=com"]⟩) :=
  createOU_missing_parent matchNothing memDir "DC=corp,DC=com"
    "OU=Child,OU=Missing,DC=corp,DC=com" "OU=Missing,DC=corp,DC=com" ⟨[], []⟩
    (Or.inr ⟨by decide, "OU=Child,OU=Missing", 0, by decide⟩)
    ⟨'O', 'U', _, rfl, Or.inr rfl, Or.inr rfl⟩ rfl (by decide) (by decide) rfl

/-- C10, the code at a DN that is not OU-shaped: for `CN=X,DC=corp,DC=com` under the search
base `DC=corp,DC=com`, on an empty directory, `createOU` reaches the extraction of the naming
value although `ouRegexp` does not match the DN, and indexing the `nil` match panics. -/
theorem createOU_panics_on_non_OU :
    ouRegexp.findStringSubmatch "CN=X,DC=corp,DC=com".data = none ∧
    ouKeyRegexp.matchString "CN=X,DC=corp,DC=com".data = false ∧
    ∀ rx : MatchString,
      createOU rx memDir "DC=corp,DC=com" "CN=X,DC=corp,DC=com" false ⟨[], []⟩
        = some (.panic, ⟨[], [existsSearch "DC=corp,DC=com" "CN=X,DC=corp,DC=com"]⟩) ∧
      createOU rx memDir "DC=corp,DC=com" "OU=,DC=corp,DC=com" false ⟨[], []⟩
        = some (.panic, ⟨[], [existsSearch "DC=corp,DC=com" "OU=,DC=corp,DC=com"]⟩) := by
  refine ⟨by decide, by decide, fun rx => ⟨?_, ?_⟩⟩
  · rw [createOU_congr rx matchNothing memDir _ (by decide)]
    decide
  · rw [createOU_congr rx matchNothing memDir _ (by decide)]
    decide

/-- C6, counterexample: the claim fails for an OU component with an escaped comma and for
a search base that begins with a space.  On a directory where no search finds an entry and
every add succeeds, `createOU` with `createParents = true` on the one OU component
`Smith\, J` on top of `DC=corp,DC=com` takes `J,DC=corp,DC=com` for the parent and ends in a
panic without an add; and on the one component `X` on top of the search base ` DC=com` it
returns the outside-search-base error for `DC=com`, without an add. -/
theorem createOU_chain_fails_on_comma_and_space :
    getParentObject (dnOver "DC=corp,DC=com" ["Smith\\, J"]) = .ret "J,DC=corp,DC=com" ∧
    ∀ rx : MatchString,
      (createOU rx scriptDir "DC=corp,DC=com" (dnOver "DC=corp,DC=com" ["Smith\\, J"]) true
          ⟨[], []⟩).map (fun r => (r.1, addedDNs r.2.log)) = some (.panic, []) ∧
      (createOU rx scriptDir " DC=com" (dnOver " DC=com" ["X"]) true
          ⟨[], []⟩).map (fun r => (r.1, addedDNs r.2.log))
        = some (.ret (some (outsideSearchBase "DC=com" " DC=com")), []) := by
  refine ⟨by decide, fun rx => ⟨?_, ?_⟩⟩
  · rw [createOU_congr rx matchNothing scriptDir _ (by decide)]
    decide
  · rw [createOU_congr rx matchNothing scriptDir _ (by decide)]
    decide

/-- C6, amended: let the search base have no regexp metacharacter other than `.`, no
newline and no leading space, and let the DN be one or more components `OU=<value>`, with
values that are not empty and have no comma or newline, joined by commas on top of the search
base.  On a directory where every add succeeds and where, as long as nothing is added, the
searches find none of these OUs (`I` holds of such states), `createOU` with
`createParents = true` succeeds, and the adds it issues are exactly the OUs of the chain,
from the one directly under the search base down to the DN, each once; it deletes nothing. -/
theorem createOU_creates_ancestors_top_down {σ : Type} (rx : MatchString) (D : Directory σ)
    (base : String) (values : List String) (I : σ → Prop) (w : World σ)
    (hbase : PlainBase base) (hne : values ≠ []) (hvalues : ∀ v ∈ values, PlainValue v)
    (hinit : I w.dir)
    (hsearch : ∀ s, I s → ∀ d ∈ ancestorChain base values,
      (D.search s base (ouFilter d) ["distinguishedName"]).1 = .ok [] ∧
        I (D.search s base (ouFilter d) ["distinguishedName"]).2)
    (hadd : ∀ s d attrs, (D.add s d attrs).1 = none) :
    ∃ w' ops, createOU rx D base (dnOver base values) true w = some (.ret none, w') ∧
      w'.log = w.log ++ ops ∧ addedDNs ops = ancestorChain base values ∧
      (ancestorChain base values).Nodup ∧ deletedDNs ops = [] := by
  obtain ⟨w', ops, h₁, h₂, h₃, h₄⟩ := createOU_chain rx D base hbase I
    (ancestorChain base values) hsearch hadd values hne hvalues (fun d hd => hd) w hinit
  exact ⟨w', ops, h₁, h₂, h₃, ancestorChain_nodup base values, h₄⟩

/-- C6, the amended claim on the scripted directory with nothing to find: for
`OU=Child,OU=Missing,DC=corp,DC=com` under `DC=corp,DC=com` the adds are
`OU=Missing,DC=corp,DC=com`, then `OU=Child,OU=Missing,DC=corp,DC=com`. -/
theorem createOU_creates_ancestors_top_down_witness :
    dnOver "DC=corp,DC=com" ["Child", "Missing"] = "OU=Child,OU=Missing,DC=corp,DC=com" ∧
    ancestorChain "DC=corp,DC=com" ["Child", "Missing"]
      = ["OU=Missing,DC=corp,DC=com", "OU=Child,OU=Missing,DC=corp,DC=com"] ∧
    ∃ w' ops, createOU matchNothing scriptDir "DC=corp,DC=com"
        (dnOver "DC=corp,DC=com" ["Child", "Missing"]) true ⟨[], []⟩ = some (.ret none, w') ∧
      w'.log = [] ++ ops ∧
      addedDNs ops = ancestorChain "DC=corp,DC=com" ["Child", "Missing"] ∧
      (ancestorChain "DC=corp,DC=com" ["Child", "Missing"]).Nodup ∧ deletedDNs ops = [] :=
  ⟨by decide, by decide,
   createOU_creates_ancestors_top_down matchNothing scriptDir "DC=corp,DC=com"
    ["Child", "Missing"] (fun s => s = []) ⟨[], []⟩ (by decide) (by decide) (by decide) rfl
    (fun s hs d _ => by subst hs; exact ⟨rfl, rfl⟩) (fun _ _ _ => rfl)⟩

/-- C8, counterexample: a failure inside the core does end the process.  When the search
that probes the parent fails, `createOU` calls `log.Fatal` with the error instead of
returning it, and `getParentObject` calls `log.Fatalf` on the empty DN. -/
theorem createOU_fatal_on_failed_parent_probe :
    getParentObject "" = .fatal "unable to get parent object of empty string" ∧
    ∀ rx : MatchString,
      createOU rx scriptDir "DC=corp,DC=com" "OU=Child,OU=Missing,DC=corp,DC=com" true
          ⟨[.ok [], .error "LDAP Result Code 200 \"Network Error\""], []⟩
        = some (.fatal "LDAP Result Code 200 \"Network Error\"",
            ⟨[], [existsSearch "DC=corp,DC=com" "OU=Child,OU=Missing,DC=corp,DC=com",
                  existsSearch "DC=corp,DC=com" "OU=Missing,DC=corp,DC=com"]⟩) := by
  refine ⟨by decide, fun rx => ?_⟩
  rw [createOU_congr rx matchNothing scriptDir _ (by decide)]
  rfl

/-- C8, amended: every path of a call, for every search base, library and directory.
`ouExists` and `deleteOU` hand a failed search, too many results and the result of the delete
to the caller as an error value.  `getParentObject` returns on every DN but the empty one.
`createOU` always ends, and what it ends with is decided as follows.  The check rejects: the
outside-search-base error is returned.  The probe of the DN reports an error: that error is
returned.  The DN exists: the already-exists error is returned.  The DN is empty, accepted
and absent: the process ends in `getParentObject`.  The parent is the search base, or the
DN is not OU-shaped: the call ends with the add.  Otherwise the parent is probed: an error of
that probe ends the process through `log.Fatal`; a parent that exists leads to the add; a
parent that is absent gives the missing-parent error when `createParents` is false, and
otherwise the call ends as the recursive call on the parent does, unless that one succeeds,
which leads to the add.  The add returns the directory's answer as a value, unless the
naming value cannot be extracted.  For a search base whose pattern is within the fragment the
check rejects the empty DN.  Conversely, a call that ends the process does so on the empty
DN, at the probe of the parent of its DN, or in the recursive call on that parent. -/
theorem createOU_failure_paths {σ : Type} (rx : MatchString) (D : Directory σ)
    (base ou : String) (createParents : Bool) (w : World σ) :
    (∀ err, (D.search w.dir base (ouFilter ou) ["distinguishedName"]).1 = .error err →
      (ouExists D base ou w).1 = (false, some err) ∧ (deleteOU D base ou w).1 = some err) ∧
    (∀ entries, (D.search w.dir base (ouFilter ou) ["distinguishedName"]).1 = .ok entries →
      1 < entries.length →
      (ouExists D base ou w).1 = (false, some (tooManyResults ou)) ∧
        (deleteOU D base ou w).1 = some (tooManyResults ou)) ∧
    (∀ e, (D.search w.dir base (ouFilter ou) ["distinguishedName"]).1 = .ok [e] →
      (deleteOU D base ou w).1
        = (D.del (D.search w.dir base (ouFilter ou) ["distinguishedName"]).2 ou).1) ∧
    (ou ≠ "" → ∃ parent, getParentObject ou = .ret parent) ∧
    (∃ r, createOU rx D base ou createParents w = some r) ∧
    (withinSearchBase rx base ou = false →
      createOU rx D base ou createParents w
        = some (.ret (some (outsideSearchBase ou base)), w)) ∧
    (withinSearchBase rx base ou = true →
      (∀ b err w₁, ouExists D base ou w = ((b, some err), w₁) →
        createOU rx D base ou createParents w = some (.ret (some err), w₁)) ∧
      (∀ w₁, ouExists D base ou w = ((true, none), w₁) →
        createOU rx D base ou createParents w = some (.ret (some (alreadyExists ou)), w₁)) ∧
      (∀ w₁, ouExists D base ou w = ((false, none), w₁) →
        (ou = "" → createOU rx D base ou createParents w
          = some (.fatal "unable to get parent object of empty string", w₁)) ∧
        (∀ parent, getParentObject ou = .ret parent →
          ((parent = base ∨ ¬ OUShaped ou) →
            createOU rx D base ou createParents w = some (addOU D ou w₁)) ∧
          (parent ≠ base → OUShaped ou →
            (∀ b err w₂, ouExists D base parent w₁ = ((b, some err), w₂) →
              createOU rx D base ou createParents w = some (.fatal err, w₂)) ∧
            (∀ w₂, ouExists D base parent w₁ = ((true, none), w₂) →
              createOU rx D base ou createParents w = some (addOU D ou w₂)) ∧
            (∀ w₂, ouExists D base parent w₁ = ((false, none), w₂) →
              (createParents = false → createOU rx D base ou createParents w
                = some (.ret (some (parentMissing ou)), w₂)) ∧
              (createParents = true → ∀ r w₃,
                createOU rx D base parent true w₂ = some (r, w₃) →
                createOU rx D base ou createParents w
                  = if r = .ret none then some (addOU D ou w₃) else some (r, w₃))))))) ∧
    (∀ w₀, addOU D ou w₀ = (.panic, w₀) ∨
      ∃ attrs, addOU D ou w₀
        = (.ret (D.add w₀.dir ou attrs).1,
           ⟨(D.add w₀.dir ou attrs).2, w₀.log ++ [.add ou attrs]⟩)) ∧
    ((basePattern base).isSome = true → withinSearchBase rx base "" = false) ∧
    (∀ msg w', createOU rx D base ou createParents w = some (.fatal msg, w') →
      ∃ w₁, withinSearchBase rx base ou = true ∧ ouExists D base ou w = ((false, none), w₁) ∧
        ((ou = "" ∧ msg = "unable to get parent object of empty string" ∧ w' = w₁) ∨
          ∃ parent, getParentObject ou = .ret parent ∧ parent ≠ base ∧ OUShaped ou ∧
            ((∃ b, ouExists D base parent w₁ = ((b, some msg), w')) ∨
              ∃ w₂, ouExists D base parent w₁ = ((false, none), w₂) ∧ createParents = true ∧
                createOU rx D base parent true w₂ = some (.fatal msg, w')))) := by
  refine ⟨fun err h => ?_, fun entries h hlen => ?_, fun e h => ?_, fun h => ?_,
    createOU_total rx D base ou createParents w,
    fun h => createOU_of_outside rx D base ou createParents w h,
    fun hw => ⟨fun b err w₁ hex => createOU_of_probe_error rx D base ou createParents w w₁ b err hw hex,
      fun w₁ hex => createOU_of_exists rx D base ou createParents w w₁ hw hex,
      fun w₁ hex => ⟨fun he => ?_, fun parent hpar => ⟨fun hd =>
        createOU_of_direct rx D base ou parent createParents w w₁ hw hex hpar hd,
        fun hne hshape => ⟨fun b err w₂ hprobe =>
          createOU_of_parent_probe_error rx D base ou parent createParents w w₁ w₂ b err hw hex
            hpar hne hshape hprobe,
          fun w₂ hprobe =>
            createOU_of_parent_exists rx D base ou parent createParents w w₁ w₂ hw hex hpar hne
              hshape hprobe,
          fun w₂ hprobe => ⟨fun hcp => ?_, fun hcp r w₃ hrec => ?_⟩⟩⟩⟩⟩,
    fun w₀ => addOU_cases D ou w₀, fun hb => withinSearchBase_empty rx hb,
    fun msg w' h => createOU_fatal_cases rx D base ou createParents w w' msg h⟩
  · have h₁ := ouExists_of_error D base ou w h
    refine ⟨h₁, ?_⟩
    have : ouExists D base ou w = ((false, some err), (ouExists D base ou w).2) :=
      Prod.ext h₁ rfl
    rw [deleteOU, this]
  · have h₁ : (ouExists D base ou w).1 = (false, some (tooManyResults ou)) := by
      rw [ouExists_of_ok D base ou w h]
      have : entries.length ≠ 1 := by omega
      simp [this, hlen]
    refine ⟨h₁, ?_⟩
    have : ouExists D base ou w
        = ((false, some (tooManyResults ou)), (ouExists D base ou w).2) := Prod.ext h₁ rfl
    rw [deleteOU, this]
  · rw [deleteOU, ouExists_of_one D base ou w h]
    rfl
  · rcases getParentObject_cases ou with ⟨he, _⟩ | ⟨_, hp⟩
    · exact absurd he h
    · exact hp
  · subst he
    exact createOU_of_empty rx D base createParents w w₁ hw hex
  · subst hcp
    exact createOU_of_parent_missing rx D base ou parent w w₁ w₂ hw hex hpar hne hshape hprobe
  · subst hcp
    exact createOU_of_recursion rx D base ou parent w w₁ w₂ w₃ r hw hex hpar hne hshape hprobe
      hrec

/-- C8, the amended claim on the scripted directory whose second search fails: the path of
`OU=Child,OU=Missing,DC=corp,DC=com` ends in `log.Fatal` at the probe of the parent. -/
theorem createOU_failure_paths_witness :
    createOU matchNothing scriptDir "DC=corp,DC=com" "OU=Child,OU=Missing,DC=corp,DC=com" false
        ⟨[.ok [], .error "LDAP Result Code 200 \"Network Error\""], []⟩
      = some (.fatal "LDAP Result Code 200 \"Network Error\"",
          ⟨[], [existsSearch "DC=corp,DC=com" "OU=Child,OU=Missing,DC=corp,DC=com",
                existsSearch "DC=corp,DC=com" "OU=Missing,DC=corp,DC=com"]⟩) :=
  (((((createOU_failure_paths matchNothing scriptDir "DC=corp,DC=com"
      "OU=Child,OU=Missing,DC=corp,DC=com" false
      ⟨[.ok [], .error "LDAP Result Code 200 \"Network Error\""], []⟩).2.2.2.2.2.2.1
      (by decide)).2.2
      ⟨[.error "LDAP Result Code 200 \"Network Error\""],
        [existsSearch "DC=corp,DC=com" "OU=Child,OU=Missing,DC=corp,DC=com"]⟩ rfl).2
      "OU=Missing,DC=corp,DC=com" (by decide)).2 (by decide)
      ⟨'O', 'U', _, rfl, Or.inr rfl, Or.inr rfl⟩).1 false
      "LDAP Result Code 200 \"Network Error\""
      ⟨[], [existsSearch "DC=corp,DC=com" "OU=Child,OU=Missing,DC=corp,DC=com",
            existsSearch "DC=corp,DC=com" "OU=Missing,DC=corp,DC=com"]⟩ rfl

end Adldap
